import Mathlib

/-!
# Separate-chaining hash table of `A.h`

A shallow embedding of the class template `HashMap<KeyType, ValueType, Hash>`.

* `std::vector<line> table` is a list of chains, a chain (`std::list<object>`) is a list
  of key/value pairs; `table[i]` is `List.getD i []` and `table[i].push_back(obj)` rewrites
  position `i` of the vector.
* A `Hash` instance is a function `K → Nat`; `KeyType::operator==` is decidable equality.
* `iterator` is the pair `(row, pos)`; the `std::list` iterator `pos` is the index of the
  node inside the chain `table[row]`, `table[row].end()` being the length of that chain.
* `size_t` counters are natural numbers.  `sz` counts allocated list nodes and
  `max_size + 1` counts allocated vector elements, so in every execution in which the
  allocations of `A.h` succeed the products `2 * max_size` and `4 * max_size` stay far
  below `2 ^ 64` and no counter wraps; executions that end in `std::bad_alloc` are outside
  the model.
-/

namespace TaskForReview

/-- Line 8: `const unsigned int EXPAND_COEFFICIENT = 4;`. -/
def EXPAND_COEFFICIENT : Nat := 4

/-- Line 9: `const unsigned int DEFAULT_SIZE = 100;`. -/
def DEFAULT_SIZE : Nat := 100

/-- The private members of `HashMap` (lines 17-20). -/
structure HashMap (K V : Type) where
  max_size : Nat
  sz : Nat
  table : List (List (K × V))
  hasher : K → Nat

/-- The members `row` and `pos` of `HashMap::iterator` (lines 123-124); `pos` is the index
of the node in the chain of `row`. -/
structure iterator where
  row : Nat
  pos : Nat
  deriving DecidableEq, Repr

/-- What a call that may throw ends with: `std::out_of_range` (line 275), or the
dereference of an iterator that designates no node. -/
inductive Failure where
  | out_of_range
  | invalid_dereference
  deriving DecidableEq, Repr

/-- The calls that mutate a table in the traces considered below. -/
inductive Op (K V : Type) where
  | insert (elem : K × V)
  | erase (key : K)
  | index (key : K)

/-- Effect of `table[i].push_back(obj)` on the vector of chains. -/
def pushAt {K V : Type} (tb : List (List (K × V))) (i : Nat) (obj : K × V) :
    List (List (K × V)) :=
  tb.set i (tb.getD i [] ++ [obj])

/-- The loop of lines 35-41 on one chain: the chain without the first node whose key is
`key`, or `none` when the loop ends without a match. -/
def eraseLoop {K V : Type} [DecidableEq K] (key : K) : List (K × V) → Option (List (K × V))
  | [] => none
  | e :: rest =>
    if e.1 = key then some rest
    else match eraseLoop key rest with
      | some r => some (e :: r)
      | none => none

/-- The loop of lines 244-248 on one chain, started at node index `p` with the pair
`(pos1, pos2)` in `acc`: every matching node overwrites the pair, the loop has no exit. -/
def findLoop {K V : Type} [DecidableEq K] (key : K) (i : Nat) :
    List (K × V) → Nat → iterator → iterator
  | [], _, acc => acc
  | e :: rest, p, acc => findLoop key i rest (p + 1) (if e.1 = key then ⟨i, p⟩ else acc)

/-- The loop of lines 69-72 on one chain: `true` when it returns early on an equal key. -/
def insertLoop {K V : Type} [DecidableEq K] (key : K) : List (K × V) → Bool
  | [] => false
  | e :: rest => if e.1 = key then true else insertLoop key rest

namespace HashMap

variable {K V : Type}

/-- Lines 22-25, `HashMap()`; `defaultHash` is the default-constructed `Hash`. -/
def mk0 (defaultHash : K → Nat) : HashMap K V :=
  { max_size := DEFAULT_SIZE
    sz := 0
    table := List.replicate (DEFAULT_SIZE + 1) []
    hasher := defaultHash }

/-- Lines 27-30, `HashMap(const Hash &_h)`. -/
def mkHash (_h : K → Nat) : HashMap K V :=
  { max_size := DEFAULT_SIZE
    sz := 0
    table := List.replicate (DEFAULT_SIZE + 1) []
    hasher := _h }

/-- The chain `table[i]`. -/
def chain (t : HashMap K V) (i : Nat) : List (K × V) :=
  t.table.getD i []

/-- Lines 109-111. -/
def size (t : HashMap K V) : Nat :=
  t.sz

/-- Lines 113-115. -/
def empty (t : HashMap K V) : Bool :=
  t.sz == 0

/-- Lines 117-119. -/
def hash_function (t : HashMap K V) : K → Nat :=
  t.hasher

/-- Lines 60-62 (and 68, 73, 74): append `obj` to the chain of its key, count it. -/
def place (t : HashMap K V) (obj : K × V) : HashMap K V :=
  { t with
    table := pushAt t.table (t.hasher obj.1 % t.max_size) obj
    sz := t.sz + 1 }

/-- Lines 50-54: the entries of the chains `0 .. max_size - 1`, in that order. -/
def collect (t : HashMap K V) : List (K × V) :=
  ((List.range t.max_size).map (fun i => t.table.getD i [])).flatten

/-- Lines 45-65, `rebuild()`. -/
def rebuild (t : HashMap K V) : HashMap K V :=
  if t.sz < DEFAULT_SIZE ∨ t.max_size < DEFAULT_SIZE then t
  else if t.sz > (EXPAND_COEFFICIENT / 2) * t.max_size then
    let new_size := EXPAND_COEFFICIENT * t.max_size
    let res := t.collect
    res.foldl place
      { max_size := new_size
        sz := 0
        table := List.replicate (new_size + 1) []
        hasher := t.hasher }
  else t

variable [DecidableEq K]

/-- Lines 32-43, `erase(key)`. -/
def erase (t : HashMap K V) (key : K) : HashMap K V :=
  let i := t.hasher key % t.max_size
  if (t.table.getD i []).isEmpty then t
  else match eraseLoop key (t.table.getD i []) with
    | some l => { t with table := t.table.set i l, sz := t.sz - 1 }
    | none => t

/-- Lines 67-76, `insert(elem)`. -/
def insert (t : HashMap K V) (elem : K × V) : HashMap K V :=
  let i := t.hasher elem.1 % t.max_size
  if insertLoop elem.1 (t.table.getD i []) then t
  else rebuild (t.place elem)

/-- Lines 221-223, `end()`. -/
def end_ (t : HashMap K V) : iterator :=
  ⟨t.max_size, (t.table.getD t.max_size []).length⟩

/-- Lines 239-251, `find(key)` (the const overload of lines 253-265 is the same code). -/
def find (t : HashMap K V) (key : K) : iterator :=
  let i := t.hasher key % t.max_size
  let none_found : iterator := ⟨t.max_size, (t.table.getD t.max_size []).length⟩
  if (t.table.getD i []).isEmpty then none_found
  else findLoop key i (t.table.getD i []) 0 none_found

/-- Lines 129-131, `*it`: the node designated by the iterator, if there is one. -/
def deref (t : HashMap K V) (it : iterator) : Option (K × V) :=
  (t.table.getD it.row [])[it.pos]?

/-- Lines 267-271, `operator[]`: the table after the call and the value read through the
returned reference (`none` when line 270 dereferences an iterator without a node). -/
def index [Inhabited V] (t : HashMap K V) (key : K) : HashMap K V × Option V :=
  let t1 := if t.find key = t.end_ then t.insert (key, default) else t
  (t1, (t1.deref (t1.find key)).map Prod.snd)

/-- Lines 273-277, `at(key) const`. -/
def at_ (t : HashMap K V) (key : K) : Except Failure V :=
  if t.find key = t.end_ then Except.error Failure.out_of_range
  else match t.deref (t.find key) with
    | some e => Except.ok e.2
    | none => Except.error Failure.invalid_dereference

/-- One call of a trace. -/
def step [Inhabited V] (t : HashMap K V) : Op K V → HashMap K V
  | Op.insert elem => t.insert elem
  | Op.erase key => t.erase key
  | Op.index key => (t.index key).1

/-- A trace of calls, applied from left to right. -/
def run [Inhabited V] (t : HashMap K V) (ops : List (Op K V)) : HashMap K V :=
  ops.foldl step t

/-- Number of entries a call appends: 1 when `insert` (called directly, or by line 269 of
`operator[]`) reaches `push_back` on line 73. -/
def added [Inhabited V] (t : HashMap K V) : Op K V → Nat
  | Op.insert elem =>
    if insertLoop elem.1 (t.table.getD (t.hasher elem.1 % t.max_size) []) then 0 else 1
  | Op.erase _ => 0
  | Op.index key =>
    if t.find key = t.end_ then
      if insertLoop key (t.table.getD (t.hasher key % t.max_size) []) then 0 else 1
    else 0

/-- Number of entries a call removes: 1 when `erase` reaches line 37. -/
def removed [Inhabited V] (t : HashMap K V) : Op K V → Nat
  | Op.erase key =>
    if (t.table.getD (t.hasher key % t.max_size) []).isEmpty then 0
    else if (eraseLoop key (t.table.getD (t.hasher key % t.max_size) [])).isSome then 1 else 0
  | _ => 0

/-- Total of `added` along a trace started in `t`. -/
def addedTotal [Inhabited V] (t : HashMap K V) : List (Op K V) → Nat
  | [] => 0
  | op :: ops => t.added op + addedTotal (t.step op) ops

/-- Total of `removed` along a trace started in `t`. -/
def removedTotal [Inhabited V] (t : HashMap K V) : List (Op K V) → Nat
  | [] => 0
  | op :: ops => t.removed op + removedTotal (t.step op) ops

/-- The entries of all chains of the bucket store, sentinel chain included. -/
def entries (t : HashMap K V) : List (K × V) :=
  t.table.flatten

/-- Some entry of the bucket store has key `k`. -/
def live (t : HashMap K V) (k : K) : Prop :=
  ∃ v, (k, v) ∈ t.entries

instance (t : HashMap K V) (k : K) : Decidable (t.live k) :=
  decidable_of_iff (k ∈ t.entries.map Prod.fst) (by simp [live])

/-- Number of new keys a call inserts: 1 for `insert(elem)` and for `operator[](key)` when
no entry of the store has the key before the call. -/
def insertsNewKey [Inhabited V] (t : HashMap K V) : Op K V → Nat
  | Op.insert elem => if t.live elem.1 then 0 else 1
  | Op.erase _ => 0
  | Op.index key => if t.live key then 0 else 1

/-- Number of present keys a call erases: 1 for `erase(key)` when an entry of the store has
the key before the call. -/
def erasesPresentKey [Inhabited V] (t : HashMap K V) : Op K V → Nat
  | Op.erase key => if t.live key then 1 else 0
  | _ => 0

/-- Total of `insertsNewKey` along a trace started in `t`. -/
def insertsNewKeyTotal [Inhabited V] (t : HashMap K V) : List (Op K V) → Nat
  | [] => 0
  | op :: ops => t.insertsNewKey op + insertsNewKeyTotal (t.step op) ops

/-- Total of `erasesPresentKey` along a trace started in `t`. -/
def erasesPresentKeyTotal [Inhabited V] (t : HashMap K V) : List (Op K V) → Nat
  | [] => 0
  | op :: ops => t.erasesPresentKey op + erasesPresentKeyTotal (t.step op) ops

/-- Tables reached from `HashMap()` by calls of `insert`, `erase` and `operator[]`. -/
inductive Reachable [Inhabited V] (defaultHash : K → Nat) : HashMap K V → Prop
  | init : Reachable defaultHash (mk0 defaultHash)
  | insert {t : HashMap K V} (elem : K × V) :
      Reachable defaultHash t → Reachable defaultHash (t.insert elem)
  | erase {t : HashMap K V} (key : K) :
      Reachable defaultHash t → Reachable defaultHash (t.erase key)
  | index {t : HashMap K V} (key : K) :
      Reachable defaultHash t → Reachable defaultHash (t.index key).1

/-- The states on which the code runs `rebuild()`: a table reached from `HashMap()`, on
which the public member is called, or such a table after lines 73-74 of `insert` have
pushed an element whose key was absent, where line 75 calls it. -/
inductive RebuildSite [Inhabited V] (defaultHash : K → Nat) : HashMap K V → Prop
  | called {u : HashMap K V} : Reachable defaultHash u → RebuildSite defaultHash u
  | line75 {u : HashMap K V} (elem : K × V) :
      Reachable defaultHash u → ¬ u.live elem.1 → RebuildSite defaultHash (u.place elem)

/-- Placement: an entry of chain `i` has `hasher(key) % max_size = i`, `i` is a real
bucket, and the sentinel chain is empty. -/
def Placement (t : HashMap K V) : Prop :=
  (∀ i e, e ∈ t.table.getD i [] → t.hasher e.1 % t.max_size = i ∧ i < t.max_size)
    ∧ t.table.getD t.max_size [] = []

/-- Uniqueness: no two entries of the bucket store have the same key. -/
def Uniqueness (t : HashMap K V) : Prop :=
  (t.entries.map Prod.fst).Nodup

/-- Size accounting: `sz` is the sum of the chain lengths. -/
def SizeAccounting (t : HashMap K V) : Prop :=
  t.sz = (t.table.map List.length).sum

/-- The path condition of lines 46-48 under which `rebuild()` reallocates the store. -/
def grows (t : HashMap K V) : Prop :=
  ¬ (t.sz < DEFAULT_SIZE ∨ t.max_size < DEFAULT_SIZE)
    ∧ t.sz > (EXPAND_COEFFICIENT / 2) * t.max_size

/-- The table `HashMap()` after `insert` of the keys `1, 2, ..., n` in this order, key `i`
with value `val i`. -/
def insertKeys (defaultHash : Nat → Nat) (val : Nat → V) : Nat → HashMap Nat V
  | 0 => mk0 defaultHash
  | n + 1 => (insertKeys defaultHash val n).insert (n + 1, val (n + 1))

/-- An example of a state whose `sz` is not the number of its entries, which no sequence
of calls produces: 101 empty chains with `sz = 201`. -/
def unaccounted : HashMap Nat Nat :=
  { max_size := 100
    sz := 201
    table := List.replicate 101 []
    hasher := fun k => k }

/-- An example of a state on which `rebuild()` reallocates: the keys `1 .. 201` (key `i` with
value `i`, identity hash) in 100 buckets, as line 74 of the 201st `insert` leaves it. -/
def crowded : HashMap Nat Nat :=
  (insertKeys (fun k => k) (fun i => i) 200).place (201, 201)

/-- An example: `HashMap<int, int>` with the identity hash after `insert({1, 10})` and
`insert({101, 20})`, two keys of bucket 1. -/
def sample : HashMap Nat Nat :=
  ((mk0 (fun k => k)).insert (1, 10)).insert (101, 20)

/-- What the index computations of `A.h` rely on: `max_size + 1` chains, a positive
`max_size`, and every entry in the chain selected by its key. -/
structure Shape (t : HashMap K V) : Prop where
  len : t.table.length = t.max_size + 1
  pos : 0 < t.max_size
  routed : ∀ i e, e ∈ t.table.getD i [] → t.hasher e.1 % t.max_size = i ∧ i < t.max_size

/-- The invariant of the tables reached from `HashMap()`. -/
structure Inv (t : HashMap K V) : Prop where
  shape : Shape t
  cap : DEFAULT_SIZE ≤ t.max_size
  uniq : Uniqueness t
  size : t.sz = t.entries.length
  load : t.sz ≤ 2 * t.max_size

/-- Lines 101-107, `operator=`: the four members are copied from `other`. -/
def assign (_t other : HashMap K V) : HashMap K V :=
  { max_size := other.max_size
    sz := other.sz
    table := other.table
    hasher := other.hasher }

/-- Lines 279-281, `clear()`: `*this = HashMap()`. -/
def clear (defaultHash : K → Nat) (t : HashMap K V) : HashMap K V :=
  t.assign (mk0 defaultHash)

/-- Lines 78-83, `HashMap(beg, end)`: `*this = HashMap()`, then `insert` of every element
of the input sequence in traversal order. -/
def mkRange (defaultHash : K → Nat) (l : List (K × V)) : HashMap K V :=
  l.foldl insert (mk0 defaultHash)

/-- Lines 85-91, `HashMap(beg, end, _h)`: the loop of `insert` runs on `HashMap()`, line 90
stores `_h` after it. -/
def mkRangeHash (defaultHash : K → Nat) (l : List (K × V)) (_h : K → Nat) : HashMap K V :=
  { l.foldl insert (mk0 defaultHash) with hasher := _h }

/-- Lines 93-95, `HashMap(std::initializer_list<object> l)`. -/
def mkList (defaultHash : K → Nat) (l : List (K × V)) : HashMap K V :=
  (mk0 defaultHash).assign (mkRange defaultHash l)

/-- Lines 97-99, `HashMap(std::initializer_list<object> l, Hash &_h)`. -/
def mkListHash (defaultHash : K → Nat) (l : List (K × V)) (_h : K → Nat) : HashMap K V :=
  (mk0 defaultHash).assign (mkRangeHash defaultHash l _h)

/-- The loop `while (row != max_size && table[row].empty()) ++row;` of lines 149-150 and
213-214, run for at most `fuel` tests of its condition: the row it exits with, `none` when
the fuel does not reach the exit. -/
def skipLoop (t : HashMap K V) : Nat → Nat → Option Nat
  | 0, _ => none
  | fuel + 1, row =>
    if row ≠ t.max_size ∧ (t.table.getD row []).isEmpty then skipLoop t fuel (row + 1)
    else some row

/-- Lines 211-219, `begin()`; the loop gets `max_size + 1` tests. -/
def begin (t : HashMap K V) : Option iterator :=
  match skipLoop t (t.max_size + 1) 0 with
  | some first_empty =>
    if first_empty = t.max_size then some ⟨t.max_size, (t.table.getD t.max_size []).length⟩
    else some ⟨first_empty, 0⟩
  | none => none

/-- Lines 145-157, `operator++` of an iterator of the table `t`; the loop gets
`max_size + 1` tests. -/
def increment (t : HashMap K V) (it : iterator) : Option iterator :=
  let pos := it.pos + 1
  if pos = (t.table.getD it.row []).length ∧ it.row ≠ t.max_size then
    match skipLoop t (t.max_size + 1) (it.row + 1) with
    | some row =>
      if row = t.max_size then some ⟨row, (t.table.getD row []).length⟩
      else some ⟨row, 0⟩
    | none => none
  else some ⟨it.row, pos⟩

/-- The iterator after `n` applications of `operator++`. -/
def advance (t : HashMap K V) : Nat → iterator → Option iterator
  | 0, it => some it
  | n + 1, it =>
    match t.increment it with
    | some it1 => advance t n it1
    | none => none

/-- The loop `for (; it != end(); ++it) visit(*it)` run for at most `fuel` tests of
`it != end()`: the entries visited in order, `none` when the fuel does not reach `end()`
or an iterator without a node is dereferenced. -/
def visitLoop (t : HashMap K V) : Nat → iterator → Option (List (K × V))
  | 0, _ => none
  | fuel + 1, it =>
    if it = t.end_ then some []
    else match t.deref it, t.increment it with
      | some e, some it1 =>
        match visitLoop t fuel it1 with
        | some rest => some (e :: rest)
        | none => none
      | _, _ => none

/-- The traversal `for (it = begin(); it != end(); ++it)` with `fuel` tests of the loop
condition. -/
def traverse (t : HashMap K V) (fuel : Nat) : Option (List (K × V)) :=
  match t.begin with
  | some it => visitLoop t fuel it
  | none => none

/-- The entries from the node of `it` to the end of the bucket store. -/
def remaining (t : HashMap K V) (it : iterator) : List (K × V) :=
  (t.table.getD it.row []).drop it.pos ++ (t.table.drop (it.row + 1)).flatten

/-- The iterator designates a node of a real bucket. -/
def dereferenceable (t : HashMap K V) (it : iterator) : Prop :=
  it.row < t.max_size ∧ it.pos < (t.table.getD it.row []).length

/-- Tables reached from `HashMap()` or `HashMap(_h)` by calls of `insert`, `erase`,
`operator[]`, `clear` and copy-assignment from another such table. -/
inductive ReachableWide [Inhabited V] (defaultHash : K → Nat) : HashMap K V → Prop
  | init : ReachableWide defaultHash (mk0 defaultHash)
  | initHash (_h : K → Nat) : ReachableWide defaultHash (mkHash _h)
  | insert {t : HashMap K V} (elem : K × V) :
      ReachableWide defaultHash t → ReachableWide defaultHash (t.insert elem)
  | erase {t : HashMap K V} (key : K) :
      ReachableWide defaultHash t → ReachableWide defaultHash (t.erase key)
  | index {t : HashMap K V} (key : K) :
      ReachableWide defaultHash t → ReachableWide defaultHash (t.index key).1
  | clear {t : HashMap K V} :
      ReachableWide defaultHash t → ReachableWide defaultHash (t.clear defaultHash)
  | assign {t other : HashMap K V} :
      ReachableWide defaultHash t → ReachableWide defaultHash other →
      ReachableWide defaultHash (t.assign other)

end HashMap

/-! ## Vectors of chains -/

section Chains

variable {K V : Type}

theorem getD_set_self (tb : List (List (K × V))) (i : Nat) (c : List (K × V))
    (h : i < tb.length) : (tb.set i c).getD i [] = c := by
  simp [List.getD_eq_getElem?_getD, List.getElem?_set, h]

theorem getD_set_ne (tb : List (List (K × V))) {i j : Nat} (c : List (K × V))
    (h : i ≠ j) : (tb.set i c).getD j [] = tb.getD j [] := by
  simp [List.getD_eq_getElem?_getD, List.getElem?_set, h]

theorem getD_of_length_le (tb : List (List (K × V))) {i : Nat} (h : tb.length ≤ i) :
    tb.getD i [] = [] := by
  simp [List.getD_eq_getElem?_getD, List.getElem?_eq_none h]

theorem getD_replicate_nil (n i : Nat) :
    (List.replicate n ([] : List (K × V))).getD i [] = [] := by
  simp only [List.getD_eq_getElem?_getD, List.getElem?_replicate]
  split <;> rfl

theorem mem_flatten_iff_getD (tb : List (List (K × V))) (e : K × V) :
    e ∈ tb.flatten ↔ ∃ i, e ∈ tb.getD i [] := by
  constructor
  · intro h
    obtain ⟨l, hl, he⟩ := List.mem_flatten.1 h
    obtain ⟨n, hn⟩ := List.mem_iff_getElem?.1 hl
    exact ⟨n, by simpa [List.getD_eq_getElem?_getD, hn] using he⟩
  · rintro ⟨i, hi⟩
    rcases Nat.lt_or_ge i tb.length with h | h
    · have : tb.getD i [] ∈ tb := by
        rw [List.getD_eq_getElem _ _ h]
        exact List.getElem_mem h
      exact List.mem_flatten.2 ⟨_, this, hi⟩
    · rw [getD_of_length_le tb h] at hi
      cases hi

theorem flatten_split (tb : List (List (K × V))) {i : Nat} (h : i < tb.length) :
    tb.flatten = (tb.take i).flatten ++ (tb.getD i [] ++ (tb.drop (i + 1)).flatten) := by
  conv_lhs => rw [← List.take_append_drop i tb, List.drop_eq_getElem_cons h]
  rw [List.flatten_append, List.flatten_cons, List.getD_eq_getElem _ _ h]

theorem flatten_set (tb : List (List (K × V))) {i : Nat} (c : List (K × V))
    (h : i < tb.length) :
    (tb.set i c).flatten = (tb.take i).flatten ++ (c ++ (tb.drop (i + 1)).flatten) := by
  rw [List.set_eq_take_append_cons_drop, if_pos h, List.flatten_append, List.flatten_cons]

theorem flatten_pushAt_perm (tb : List (List (K × V))) {i : Nat} (obj : K × V)
    (h : i < tb.length) : List.Perm (pushAt tb i obj).flatten (obj :: tb.flatten) := by
  unfold pushAt
  rw [flatten_set tb _ h, flatten_split tb h]
  have h1 : List.Perm (tb.getD i [] ++ [obj] ++ (tb.drop (i + 1)).flatten)
      (obj :: (tb.getD i [] ++ (tb.drop (i + 1)).flatten)) := by
    rw [List.append_assoc]
    exact List.perm_middle
  exact (List.Perm.append_left _ h1).trans List.perm_middle

theorem length_pushAt (tb : List (List (K × V))) (i : Nat) (obj : K × V) :
    (pushAt tb i obj).length = tb.length := by
  simp [pushAt]

theorem map_range_getD (tb : List (List (K × V))) (n : Nat) :
    (List.range n).map (fun i => tb.getD i []) =
      tb.take n ++ List.replicate (n - tb.length) [] := by
  apply List.ext_getElem?
  intro i
  rcases Nat.lt_or_ge i n with hin | hin
  · rw [List.getElem?_map, List.getElem?_range hin]
    rcases Nat.lt_or_ge i tb.length with hil | hil
    · rw [List.getElem?_append_left (by simp; omega), List.getElem?_take_of_lt hin]
      simp [List.getD_eq_getElem?_getD, List.getElem?_eq_getElem hil]
    · rw [List.getElem?_append_right (by simp; omega)]
      simp only [List.length_take, List.getElem?_replicate, Option.map_some']
      rw [getD_of_length_le tb hil, if_pos (by omega)]
  · rw [List.getElem?_eq_none (by simpa using hin), List.getElem?_eq_none]
    simp only [List.length_append, List.length_take, List.length_replicate]
    omega

end Chains

/-! ## The three loops over one chain -/

section Loops

variable {K V : Type} [DecidableEq K]

theorem insertLoop_eq_true_iff (key : K) (c : List (K × V)) :
    insertLoop key c = true ↔ key ∈ c.map Prod.fst := by
  induction c with
  | nil => simp [insertLoop]
  | cons e rest ih =>
    by_cases h : e.1 = key
    · simp [insertLoop, h]
    · have h' : ¬ key = e.1 := fun h2 => h h2.symm
      simp [insertLoop, h, h', ih]

theorem eraseLoop_eq_none_iff (key : K) (c : List (K × V)) :
    eraseLoop key c = none ↔ key ∉ c.map Prod.fst := by
  induction c with
  | nil => simp [eraseLoop]
  | cons e rest ih =>
    by_cases h : e.1 = key
    · simp [eraseLoop, h]
    · have h' : ¬ key = e.1 := fun h2 => h h2.symm
      have ih' : eraseLoop key rest = none ↔ ∀ x, (key, x) ∉ rest := by simpa using ih
      cases hr : eraseLoop key rest with
      | none => simpa [eraseLoop, h, h', hr] using ih'.1 hr
      | some r =>
        have : ¬ ∀ x, (key, x) ∉ rest := fun hx => by simp [ih'.2 hx] at hr
        simpa [eraseLoop, h, h', hr] using this

theorem eraseLoop_some_perm (key : K) (c l : List (K × V)) (h : eraseLoop key c = some l) :
    ∃ v, List.Perm c ((key, v) :: l) := by
  induction c generalizing l with
  | nil => simp [eraseLoop] at h
  | cons e rest ih =>
    by_cases he : e.1 = key
    · simp only [eraseLoop, he, if_true, Option.some.injEq] at h
      subst h
      exact ⟨e.2, by rw [← he]⟩
    · cases hr : eraseLoop key rest with
      | none => simp [eraseLoop, he, hr] at h
      | some r =>
        simp only [eraseLoop, he, if_false, hr, Option.some.injEq] at h
        subst h
        obtain ⟨v, hv⟩ := ih r hr
        exact ⟨v, (List.Perm.cons e hv).trans (List.Perm.swap _ _ _)⟩

theorem findLoop_of_not_mem (key : K) (i : Nat) (c : List (K × V)) (p : Nat) (acc : iterator)
    (h : key ∉ c.map Prod.fst) : findLoop key i c p acc = acc := by
  induction c generalizing p acc with
  | nil => rfl
  | cons e rest ih =>
    have h1 : ¬ e.1 = key := fun h2 => h (by simp [← h2])
    have h2 : key ∉ rest.map Prod.fst := fun h3 => h (by simp at h3 ⊢; exact Or.inr h3)
    simp only [findLoop, h1, if_false]
    exact ih _ _ h2

theorem findLoop_of_mem (key : K) (v : V) (i : Nat) (ch : List (K × V)) (p : Nat)
    (acc : iterator) (hn : (ch.map Prod.fst).Nodup) (h : (key, v) ∈ ch) :
    ∃ q, findLoop key i ch p acc = ⟨i, p + q⟩ ∧ ch[q]? = some (key, v) := by
  induction ch generalizing p acc with
  | nil => cases h
  | cons e rest ih =>
    rw [List.map_cons, List.nodup_cons] at hn
    by_cases he : e.1 = key
    · have hnot : key ∉ rest.map Prod.fst := he ▸ hn.1
      have hev : e = (key, v) := by
        rcases List.mem_cons.1 h with h1 | h1
        · exact h1.symm
        · exact absurd (List.mem_map_of_mem Prod.fst h1) hnot
      refine ⟨0, ?_, by simp [hev]⟩
      simp only [findLoop, he, if_true]
      exact findLoop_of_not_mem key i rest _ _ hnot
    · have hmem : (key, v) ∈ rest := by
        rcases List.mem_cons.1 h with h1 | h1
        · exact absurd (by rw [← h1]) he
        · exact h1
      obtain ⟨q, hq1, hq2⟩ := ih (p + 1) acc hn.2 hmem
      refine ⟨q + 1, ?_, by simpa using hq2⟩
      simp only [findLoop, he, if_false]
      rw [hq1, Nat.add_assoc, Nat.add_comm 1 q]

end Loops

/-! ## `push_back` into the chain of a key, and `rebuild` -/

namespace HashMap

section Place

variable {K V : Type}

theorem place_max_size (t : HashMap K V) (obj : K × V) :
    (t.place obj).max_size = t.max_size := rfl

theorem place_sz (t : HashMap K V) (obj : K × V) : (t.place obj).sz = t.sz + 1 := rfl

theorem Shape.sentinel {t : HashMap K V} (h : Shape t) : t.table.getD t.max_size [] = [] := by
  apply List.eq_nil_iff_forall_not_mem.2
  intro e he
  exact absurd (h.routed _ e he).2 (Nat.lt_irrefl _)

theorem Shape.placement {t : HashMap K V} (h : Shape t) : Placement t :=
  ⟨h.routed, h.sentinel⟩

theorem Shape.place {t : HashMap K V} (h : Shape t) (obj : K × V) : Shape (t.place obj) := by
  have hj : t.hasher obj.1 % t.max_size < t.table.length := by
    rw [h.len]
    exact Nat.lt_succ_of_lt (Nat.mod_lt _ h.pos)
  refine ⟨?_, h.pos, ?_⟩
  · show (pushAt t.table _ obj).length = t.max_size + 1
    rw [length_pushAt, h.len]
  · intro i e he
    show t.hasher e.1 % t.max_size = i ∧ i < t.max_size
    change e ∈ (pushAt t.table (t.hasher obj.1 % t.max_size) obj).getD i [] at he
    unfold pushAt at he
    by_cases hij : t.hasher obj.1 % t.max_size = i
    · rw [hij] at he hj
      rw [getD_set_self _ _ _ hj, List.mem_append] at he
      rcases he with he | he
      · exact h.routed i e he
      · rw [List.mem_singleton] at he
        subst he
        exact ⟨hij, hij ▸ Nat.mod_lt _ h.pos⟩
    · rw [getD_set_ne _ _ hij] at he
      exact h.routed i e he

theorem Shape.place_entries {t : HashMap K V} (h : Shape t) (obj : K × V) :
    List.Perm (t.place obj).entries (obj :: t.entries) := by
  have hj : t.hasher obj.1 % t.max_size < t.table.length := by
    rw [h.len]
    exact Nat.lt_succ_of_lt (Nat.mod_lt _ h.pos)
  exact flatten_pushAt_perm t.table obj hj

theorem foldl_place_spec (res : List (K × V)) (s : HashMap K V) (h : Shape s) :
    Shape (res.foldl place s) ∧ (res.foldl place s).max_size = s.max_size
      ∧ (res.foldl place s).hasher = s.hasher
      ∧ (res.foldl place s).sz = s.sz + res.length
      ∧ List.Perm (res.foldl place s).entries (res ++ s.entries) := by
  induction res generalizing s with
  | nil => exact ⟨h, rfl, rfl, rfl, List.Perm.refl _⟩
  | cons obj rest ih =>
    obtain ⟨h1, h2, h3, h4, h5⟩ := ih (s.place obj) (h.place obj)
    refine ⟨h1, h2, h3, ?_, ?_⟩
    · rw [List.foldl_cons, h4, place_sz, List.length_cons]
      omega
    · rw [List.foldl_cons]
      refine h5.trans ?_
      refine (List.Perm.append_left rest (h.place_entries obj)).trans ?_
      exact List.perm_middle

theorem collect_eq_entries (t : HashMap K V)
    (h : ∀ i e, e ∈ t.table.getD i [] → i < t.max_size) : t.collect = t.entries := by
  unfold collect entries
  rw [map_range_getD, List.flatten_append, List.flatten_replicate_nil, List.append_nil]
  conv_rhs => rw [← List.take_append_drop t.max_size t.table, List.flatten_append]
  have hd : (t.table.drop t.max_size).flatten = [] := by
    apply List.eq_nil_iff_forall_not_mem.2
    intro e he
    obtain ⟨j, hj⟩ := (mem_flatten_iff_getD _ e).1 he
    rw [List.getD_eq_getElem?_getD, List.getElem?_drop, ← List.getD_eq_getElem?_getD] at hj
    exact absurd (h _ e hj) (by omega)
  rw [hd, List.append_nil]

theorem rebuild_of_not_grow (t : HashMap K V)
    (h : t.sz < DEFAULT_SIZE ∨ t.max_size < DEFAULT_SIZE ∨ t.sz ≤ 2 * t.max_size) :
    t.rebuild = t := by
  unfold rebuild
  by_cases h1 : t.sz < DEFAULT_SIZE ∨ t.max_size < DEFAULT_SIZE
  · rw [if_pos h1]
  · rw [if_neg h1, if_neg]
    have : t.sz ≤ 2 * t.max_size := by tauto
    simpa [EXPAND_COEFFICIENT] using this

/-- The table built by lines 55-58 before the entries are pushed back. -/
theorem fresh_shape (n : Nat) (hn : 0 < n) (hf : K → Nat) :
    Shape ({ max_size := n, sz := 0, table := List.replicate (n + 1) [], hasher := hf } :
      HashMap K V) := by
  refine ⟨by simp, hn, ?_⟩
  intro i e he
  change e ∈ (List.replicate (n + 1) ([] : List (K × V))).getD i [] at he
  rw [getD_replicate_nil] at he
  cases he

theorem rebuild_of_grow (t : HashMap K V) (h1 : DEFAULT_SIZE ≤ t.sz)
    (h2 : DEFAULT_SIZE ≤ t.max_size) (h3 : 2 * t.max_size < t.sz)
    (h : ∀ i e, e ∈ t.table.getD i [] → i < t.max_size) :
    Shape t.rebuild ∧ t.rebuild.max_size = 4 * t.max_size ∧ t.rebuild.hasher = t.hasher
      ∧ t.rebuild.sz = t.entries.length ∧ List.Perm t.rebuild.entries t.entries := by
  have hpos : 0 < EXPAND_COEFFICIENT * t.max_size := by
    simp only [EXPAND_COEFFICIENT, DEFAULT_SIZE] at *
    omega
  have hr : t.rebuild = t.collect.foldl place
      { max_size := EXPAND_COEFFICIENT * t.max_size, sz := 0,
        table := List.replicate (EXPAND_COEFFICIENT * t.max_size + 1) [],
        hasher := t.hasher } := by
    unfold rebuild
    rw [if_neg (by omega), if_pos (by simpa [EXPAND_COEFFICIENT] using h3)]
  obtain ⟨g1, g2, g3, g4, g5⟩ :=
    foldl_place_spec t.collect _ (fresh_shape (EXPAND_COEFFICIENT * t.max_size) hpos t.hasher)
  rw [← hr] at g1 g2 g3 g4 g5
  rw [collect_eq_entries t h] at g4 g5
  refine ⟨g1, g2, g3, by simpa using g4, ?_⟩
  simpa [entries] using g5

end Place

/-! ## `find` on a well-shaped table -/

section Lookup

variable {K V : Type}

theorem value_unique {l : List (K × V)} (hn : (l.map Prod.fst).Nodup) {k : K} {v w : V}
    (hv : (k, v) ∈ l) (hw : (k, w) ∈ l) : v = w := by
  induction l with
  | nil => cases hv
  | cons e rest ih =>
    rw [List.map_cons, List.nodup_cons] at hn
    rcases List.mem_cons.1 hv with h1 | h1 <;> rcases List.mem_cons.1 hw with h2 | h2
    · have := h1.trans h2.symm
      exact (Prod.mk.inj this).2
    · exact absurd (List.mem_map_of_mem Prod.fst h2) (by rw [← h1] at hn; exact hn.1)
    · exact absurd (List.mem_map_of_mem Prod.fst h1) (by rw [← h2] at hn; exact hn.1)
    · exact ih hn.2 h1 h2

theorem chain_sublist (tb : List (List (K × V))) (i : Nat) :
    List.Sublist (tb.getD i []) tb.flatten := by
  rcases Nat.lt_or_ge i tb.length with h | h
  · rw [flatten_split tb h]
    exact List.sublist_append_of_sublist_right (List.sublist_append_left _ _)
  · rw [getD_of_length_le tb h]
    exact List.nil_sublist _

theorem Uniqueness.chain {t : HashMap K V} (h : Uniqueness t) (i : Nat) :
    ((t.table.getD i []).map Prod.fst).Nodup :=
  List.Nodup.sublist ((chain_sublist t.table i).map Prod.fst) h

theorem Shape.mem_entries_iff {t : HashMap K V} (h : Shape t) (e : K × V) :
    e ∈ t.entries ↔ e ∈ t.table.getD (t.hasher e.1 % t.max_size) [] := by
  constructor
  · intro he
    obtain ⟨i, hi⟩ := (mem_flatten_iff_getD _ e).1 he
    rw [(h.routed i e hi).1]
    exact hi
  · intro he
    exact (mem_flatten_iff_getD _ e).2 ⟨_, he⟩

theorem Shape.live_iff {t : HashMap K V} (h : Shape t) (k : K) :
    t.live k ↔ k ∈ (t.table.getD (t.hasher k % t.max_size) []).map Prod.fst := by
  constructor
  · rintro ⟨v, hv⟩
    exact List.mem_map_of_mem Prod.fst ((h.mem_entries_iff (k, v)).1 hv)
  · intro hk
    obtain ⟨e, he, rfl⟩ := List.mem_map.1 hk
    exact ⟨e.2, (h.mem_entries_iff e).2 he⟩

theorem deref_end (t : HashMap K V) : t.deref t.end_ = none := by
  simp [deref, end_]

theorem Shape.find_of_mem [DecidableEq K] {t : HashMap K V} (h : Shape t) (hu : Uniqueness t) {k : K} {v : V}
    (hv : (k, v) ∈ t.entries) :
    (∃ q, t.find k = ⟨t.hasher k % t.max_size, q⟩) ∧ t.deref (t.find k) = some (k, v)
      ∧ t.find k ≠ t.end_ := by
  have hc : (k, v) ∈ t.table.getD (t.hasher k % t.max_size) [] := (h.mem_entries_iff (k, v)).1 hv
  have hne : (t.table.getD (t.hasher k % t.max_size) []).isEmpty = false := by
    cases hl : t.table.getD (t.hasher k % t.max_size) [] with
    | nil => rw [hl] at hc; cases hc
    | cons a l => rfl
  obtain ⟨q, hq1, hq2⟩ := findLoop_of_mem k v (t.hasher k % t.max_size) _ 0
    ⟨t.max_size, (t.table.getD t.max_size []).length⟩ (hu.chain _) hc
  have hf : t.find k = ⟨t.hasher k % t.max_size, 0 + q⟩ := by
    unfold find
    simp only [hne]
    exact hq1
  refine ⟨⟨_, hf⟩, ?_, ?_⟩
  · rw [hf]
    simpa [deref] using hq2
  · rw [hf, end_]
    intro heq
    have := congrArg iterator.row heq
    exact absurd this (Nat.ne_of_lt (Nat.mod_lt _ h.pos))

theorem Shape.find_of_not_live [DecidableEq K] {t : HashMap K V} (h : Shape t) {k : K} (hk : ¬ t.live k) :
    t.find k = t.end_ := by
  have hk2 := mt (h.live_iff k).2 hk
  unfold find end_
  by_cases he : (t.table.getD (t.hasher k % t.max_size) []).isEmpty = true
  · simp only [he, if_true]
  · simp only [he]
    exact findLoop_of_not_mem k _ _ 0 _ hk2

theorem Shape.find_eq_end_iff [DecidableEq K] {t : HashMap K V} (h : Shape t) (hu : Uniqueness t) (k : K) :
    t.find k = t.end_ ↔ ¬ t.live k := by
  constructor
  · rintro heq ⟨v, hv⟩
    exact (h.find_of_mem hu hv).2.2 heq
  · exact h.find_of_not_live

theorem Shape.deref_find_of_not_live [DecidableEq K] {t : HashMap K V} (h : Shape t) {k : K}
    (hk : ¬ t.live k) : t.deref (t.find k) = none := by
  rw [h.find_of_not_live hk, deref_end]

end Lookup

/-! ## One call on a table that satisfies the invariant -/

section Calls

variable {K V : Type}

theorem mk0_inv (defaultHash : K → Nat) : Inv (mk0 defaultHash : HashMap K V) := by
  refine ⟨fresh_shape DEFAULT_SIZE (by decide) defaultHash, Nat.le_refl _, ?_, ?_, ?_⟩
  · simp [Uniqueness, entries, mk0]
  · simp [entries, mk0]
  · simp [mk0]

theorem mk0_entries (defaultHash : K → Nat) : (mk0 defaultHash : HashMap K V).entries = [] := by
  simp [entries, mk0]

theorem Uniqueness.of_perm {t u : HashMap K V} (h : Uniqueness t)
    (hp : List.Perm u.entries t.entries) : Uniqueness u :=
  ((hp.map Prod.fst).nodup_iff).2 h

theorem insert_of_live [DecidableEq K] {t : HashMap K V} (h : Shape t) (elem : K × V)
    (hk : t.live elem.1) : t.insert elem = t := by
  unfold insert
  simp only [(insertLoop_eq_true_iff _ _).2 ((h.live_iff _).1 hk), if_true]

theorem insert_of_not_live_eq [DecidableEq K] {t : HashMap K V} (h : Shape t) (elem : K × V)
    (hk : ¬ t.live elem.1) : t.insert elem = (t.place elem).rebuild := by
  have : ¬ insertLoop elem.1 (t.table.getD (t.hasher elem.1 % t.max_size) []) = true :=
    fun hl => hk ((h.live_iff _).2 ((insertLoop_eq_true_iff _ _).1 hl))
  unfold insert
  simp only [this]
  rfl

theorem insert_of_not_live [DecidableEq K] {t : HashMap K V} (h : Inv t) (elem : K × V)
    (hk : ¬ t.live elem.1) :
    Inv (t.insert elem) ∧ (t.insert elem).sz = t.sz + 1
      ∧ List.Perm (t.insert elem).entries (elem :: t.entries)
      ∧ (t.insert elem).hasher = t.hasher
      ∧ (t.insert elem).max_size = if 2 * t.max_size < t.sz + 1 then 4 * t.max_size
          else t.max_size := by
  rw [insert_of_not_live_eq h.shape elem hk]
  have hs1 : Shape (t.place elem) := h.shape.place elem
  have hp1 : List.Perm (t.place elem).entries (elem :: t.entries) := h.shape.place_entries elem
  have hu1 : Uniqueness (t.place elem) := by
    refine ((hp1.map Prod.fst).nodup_iff).2 ?_
    rw [List.map_cons, List.nodup_cons]
    refine ⟨?_, h.uniq⟩
    intro hmem
    obtain ⟨e, he, hee⟩ := List.mem_map.1 hmem
    exact hk ⟨e.2, by rw [← hee]; exact he⟩
  have hz1 : (t.place elem).sz = (t.place elem).entries.length := by
    rw [place_sz, hp1.length_eq, List.length_cons, h.size]
  have hcap := h.cap
  have hload := h.load
  by_cases hg : 2 * t.max_size < t.sz + 1
  · rw [if_pos hg]
    have hcap' : DEFAULT_SIZE ≤ t.max_size := hcap
    simp only [DEFAULT_SIZE] at hcap
    obtain ⟨g1, g2, g3, g4, g5⟩ := rebuild_of_grow (t.place elem)
      (by rw [place_sz]; simp only [DEFAULT_SIZE]; omega) hcap' hg
      (fun i e he => (hs1.routed i e he).2)
    rw [place_max_size] at g2
    refine ⟨⟨g1, ?_, hu1.of_perm g5, ?_, ?_⟩, ?_, g5.trans hp1, g3, g2⟩
    · rw [g2]
      simp only [DEFAULT_SIZE]
      omega
    · rw [g4, g5.length_eq]
    · rw [g4, ← hz1, place_sz, g2]
      omega
    · rw [g4, ← hz1, place_sz]
  · rw [if_neg hg, rebuild_of_not_grow (t.place elem) (Or.inr (Or.inr (by
      rw [place_sz, place_max_size]; omega)))]
    exact ⟨⟨hs1, hcap, hu1, hz1, by rw [place_sz, place_max_size]; omega⟩, rfl, hp1, rfl, rfl⟩

theorem erase_of_not_live [DecidableEq K] {t : HashMap K V} (h : Shape t) (key : K)
    (hk : ¬ t.live key) : t.erase key = t := by
  have hn : eraseLoop key (t.table.getD (t.hasher key % t.max_size) []) = none :=
    (eraseLoop_eq_none_iff _ _).2 (mt (h.live_iff key).2 hk)
  unfold erase
  simp only [hn]
  split <;> rfl

theorem erase_of_live [DecidableEq K] {t : HashMap K V} (h : Inv t) {key : K} {v : V}
    (hk : (key, v) ∈ t.entries) :
    Inv (t.erase key) ∧ (t.erase key).sz + 1 = t.sz
      ∧ List.Perm t.entries ((key, v) :: (t.erase key).entries)
      ∧ (t.erase key).hasher = t.hasher ∧ (t.erase key).max_size = t.max_size := by
  have hc : (key, v) ∈ t.table.getD (t.hasher key % t.max_size) [] :=
    (h.shape.mem_entries_iff (key, v)).1 hk
  have hne : (t.table.getD (t.hasher key % t.max_size) []).isEmpty = false := by
    cases hl : t.table.getD (t.hasher key % t.max_size) [] with
    | nil => rw [hl] at hc; cases hc
    | cons a l => rfl
  have hj : t.hasher key % t.max_size < t.table.length := by
    rw [h.shape.len]
    exact Nat.lt_succ_of_lt (Nat.mod_lt _ h.shape.pos)
  cases hl : eraseLoop key (t.table.getD (t.hasher key % t.max_size) []) with
  | none =>
    exact absurd (List.mem_map_of_mem Prod.fst hc) ((eraseLoop_eq_none_iff _ _).1 hl)
  | some l =>
    have he : t.erase key =
        { t with table := t.table.set (t.hasher key % t.max_size) l, sz := t.sz - 1 } := by
      unfold erase
      simp only [hne, hl]
      rfl
    obtain ⟨w, hw⟩ := eraseLoop_some_perm key _ l hl
    have hwv : w = v := by
      have hwm : (key, w) ∈ t.table.getD (t.hasher key % t.max_size) [] :=
        hw.symm.subset (List.mem_cons_self _ _)
      exact value_unique h.uniq ((h.shape.mem_entries_iff (key, w)).2 hwm) hk
    subst hwv
    have hperm : List.Perm t.entries ((key, w) :: (t.erase key).entries) := by
      rw [he]
      show List.Perm t.table.flatten ((key, w) :: (t.table.set _ l).flatten)
      rw [flatten_set t.table l hj]
      conv_lhs => rw [flatten_split t.table hj]
      refine List.Perm.trans ?_ List.perm_middle
      exact List.Perm.append_left _ (List.Perm.append_right _ hw)
    have hpos : 0 < t.sz := by
      rw [h.size, hperm.length_eq]
      simp
    have hsz : (t.erase key).sz + 1 = t.sz := by
      rw [he]
      show t.sz - 1 + 1 = t.sz
      omega
    refine ⟨⟨⟨?_, ?_, ?_⟩, ?_, ?_, ?_, ?_⟩, hsz, hperm, by rw [he], by rw [he]⟩
    · rw [he]
      show (t.table.set _ l).length = t.max_size + 1
      rw [List.length_set, h.shape.len]
    · rw [he]
      exact h.shape.pos
    · rw [he]
      intro i e hie
      change e ∈ (t.table.set (t.hasher key % t.max_size) l).getD i [] at hie
      show t.hasher e.1 % t.max_size = i ∧ i < t.max_size
      by_cases hij : t.hasher key % t.max_size = i
      · rw [← hij] at hie ⊢
        rw [getD_set_self _ _ _ hj] at hie
        exact h.shape.routed _ e (hw.symm.subset (List.mem_cons_of_mem _ hie))
      · rw [getD_set_ne _ _ hij] at hie
        exact h.shape.routed i e hie
    · rw [he]
      exact h.cap
    · have hn := ((hperm.map Prod.fst).nodup_iff).1 h.uniq
      rw [List.map_cons, List.nodup_cons] at hn
      exact hn.2
    · have := hperm.length_eq
      rw [List.length_cons, ← h.size] at this
      omega
    · have := h.load
      rw [he]
      show t.sz - 1 ≤ 2 * t.max_size
      omega

theorem index_of_live [DecidableEq K] [Inhabited V] {t : HashMap K V} (h : Inv t) {key : K}
    {v : V} (hk : (key, v) ∈ t.entries) : t.index key = (t, some v) := by
  obtain ⟨_, h2, h3⟩ := h.shape.find_of_mem h.uniq hk
  unfold index
  simp only [h3, if_false, h2, Option.map_some']

theorem index_of_not_live [DecidableEq K] [Inhabited V] {t : HashMap K V} (h : Inv t) {key : K}
    (hk : ¬ t.live key) :
    (t.index key).1 = t.insert (key, default) ∧ (t.index key).2 = some default := by
  have hf := h.shape.find_of_not_live hk
  obtain ⟨g1, _, g3, _, _⟩ := insert_of_not_live h (key, default) hk
  have hm : (key, (default : V)) ∈ (t.insert (key, default)).entries :=
    g3.symm.subset (List.mem_cons_self _ _)
  obtain ⟨_, h2, _⟩ := g1.shape.find_of_mem g1.uniq hm
  unfold index
  simp only [hf, if_true, h2, Option.map_some', and_self]

theorem step_spec [DecidableEq K] [Inhabited V] {t : HashMap K V} (h : Inv t) (op : Op K V) :
    Inv (t.step op) ∧ (t.step op).hasher = t.hasher
      ∧ (t.step op).sz + t.removed op = t.sz + t.added op := by
  cases op with
  | insert elem =>
    have hr : t.removed (Op.insert elem) = 0 := rfl
    by_cases hk : t.live elem.1
    · have hl := (insertLoop_eq_true_iff _ _).2 ((h.shape.live_iff _).1 hk)
      have hs : t.step (Op.insert elem) = t := insert_of_live h.shape elem hk
      have ha : t.added (Op.insert elem) = 0 := if_pos hl
      rw [hs, ha, hr]
      exact ⟨h, rfl, rfl⟩
    · have hl : ¬ insertLoop elem.1 (t.table.getD (t.hasher elem.1 % t.max_size) []) = true :=
        fun hl => hk ((h.shape.live_iff _).2 ((insertLoop_eq_true_iff _ _).1 hl))
      obtain ⟨g1, g2, _, g4, _⟩ := insert_of_not_live h elem hk
      have ha : t.added (Op.insert elem) = 1 := if_neg hl
      rw [ha, hr]
      exact ⟨g1, g4, by show (t.insert elem).sz + 0 = t.sz + 1; omega⟩
  | erase key =>
    have ha : t.added (Op.erase key) = 0 := rfl
    by_cases hk : t.live key
    · obtain ⟨v, hv⟩ := hk
      obtain ⟨g1, g2, _, g4, _⟩ := erase_of_live h hv
      have hc : (key, v) ∈ t.table.getD (t.hasher key % t.max_size) [] :=
        (h.shape.mem_entries_iff (key, v)).1 hv
      have hne : (t.table.getD (t.hasher key % t.max_size) []).isEmpty = false := by
        cases hl : t.table.getD (t.hasher key % t.max_size) [] with
        | nil => rw [hl] at hc; cases hc
        | cons a l => rfl
      have hsome : (eraseLoop key (t.table.getD (t.hasher key % t.max_size) [])).isSome
          = true := by
        cases hl : eraseLoop key (t.table.getD (t.hasher key % t.max_size) []) with
        | none =>
          exact absurd (List.mem_map_of_mem Prod.fst hc) ((eraseLoop_eq_none_iff _ _).1 hl)
        | some l => rfl
      have hr : t.removed (Op.erase key) = 1 := by
        unfold removed
        simp only [hne, hsome, if_true]
        rfl
      rw [ha, hr]
      exact ⟨g1, g4, by show (t.erase key).sz + 1 = t.sz + 0; omega⟩
    · have hn : eraseLoop key (t.table.getD (t.hasher key % t.max_size) []) = none :=
        (eraseLoop_eq_none_iff _ _).2 (mt (h.shape.live_iff key).2 hk)
      have hs : t.step (Op.erase key) = t := erase_of_not_live h.shape key hk
      have hr : t.removed (Op.erase key) = 0 := by
        unfold removed
        simp only [hn]
        split <;> rfl
      rw [hs, ha, hr]
      exact ⟨h, rfl, rfl⟩
  | index key =>
    have hr : t.removed (Op.index key) = 0 := rfl
    by_cases hk : t.live key
    · obtain ⟨v, hv⟩ := hk
      have hf := (h.shape.find_of_mem h.uniq hv).2.2
      have hs : t.step (Op.index key) = t := by
        show (t.index key).1 = t
        rw [index_of_live h hv]
      have ha : t.added (Op.index key) = 0 := if_neg hf
      rw [hs, ha, hr]
      exact ⟨h, rfl, rfl⟩
    · have hl : ¬ insertLoop key (t.table.getD (t.hasher key % t.max_size) []) = true :=
        fun hl => hk ((h.shape.live_iff _).2 ((insertLoop_eq_true_iff _ _).1 hl))
      obtain ⟨g1, g2, _, g4, _⟩ := insert_of_not_live h (key, default) hk
      have hs : t.step (Op.index key) = t.insert (key, default) :=
        (index_of_not_live h hk).1
      have ha : t.added (Op.index key) = 1 :=
        (if_pos (h.shape.find_of_not_live hk)).trans (if_neg hl)
      rw [hs, ha, hr]
      exact ⟨g1, g4, by omega⟩

theorem run_spec [DecidableEq K] [Inhabited V] (ops : List (Op K V)) {t : HashMap K V}
    (h : Inv t) :
    Inv (t.run ops) ∧ (t.run ops).sz + t.removedTotal ops = t.sz + t.addedTotal ops := by
  induction ops generalizing t with
  | nil => exact ⟨h, rfl⟩
  | cons op rest ih =>
    obtain ⟨g1, _, g3⟩ := step_spec h op
    obtain ⟨i1, i2⟩ := ih g1
    refine ⟨i1, ?_⟩
    show ((t.step op).run rest).sz + (t.removed op + (t.step op).removedTotal rest)
      = t.sz + (t.added op + (t.step op).addedTotal rest)
    omega

theorem Reachable.inv [DecidableEq K] [Inhabited V] {defaultHash : K → Nat} {t : HashMap K V}
    (h : Reachable defaultHash t) : Inv t ∧ t.hasher = defaultHash := by
  induction h with
  | init => exact ⟨mk0_inv defaultHash, rfl⟩
  | insert elem _ ih =>
    obtain ⟨g1, g2, _⟩ := step_spec ih.1 (Op.insert elem)
    exact ⟨g1, g2.trans ih.2⟩
  | erase key _ ih =>
    obtain ⟨g1, g2, _⟩ := step_spec ih.1 (Op.erase key)
    exact ⟨g1, g2.trans ih.2⟩
  | index key _ ih =>
    obtain ⟨g1, g2, _⟩ := step_spec ih.1 (Op.index key)
    exact ⟨g1, g2.trans ih.2⟩

/-- The entry found by `find` for a key is decided by the entries of the table alone. -/
theorem lookup_congr [DecidableEq K] {t u : HashMap K V} (ht : Inv t) (hu : Inv u) (k : K)
    (h : ∀ v, (k, v) ∈ u.entries ↔ (k, v) ∈ t.entries) :
    u.deref (u.find k) = t.deref (t.find k) ∧ (u.find k = u.end_ ↔ t.find k = t.end_) := by
  by_cases hk : t.live k
  · obtain ⟨v, hv⟩ := hk
    obtain ⟨_, a2, a3⟩ := ht.shape.find_of_mem ht.uniq hv
    obtain ⟨_, b2, b3⟩ := hu.shape.find_of_mem hu.uniq ((h v).2 hv)
    exact ⟨b2.trans a2.symm, iff_of_false b3 a3⟩
  · have hk' : ¬ u.live k := fun ⟨v, hv⟩ => hk ⟨v, (h v).1 hv⟩
    refine ⟨?_, iff_of_true (hu.shape.find_of_not_live hk') (ht.shape.find_of_not_live hk)⟩
    rw [hu.shape.deref_find_of_not_live hk', ht.shape.deref_find_of_not_live hk]

theorem added_eq_insertsNewKey [DecidableEq K] [Inhabited V] {t : HashMap K V} (h : Inv t)
    (op : Op K V) : t.added op = t.insertsNewKey op := by
  have hins : ∀ key : K,
      (insertLoop key (t.table.getD (t.hasher key % t.max_size) []) = true) ↔ t.live key :=
    fun key => (insertLoop_eq_true_iff _ _).trans (h.shape.live_iff key).symm
  cases op with
  | insert elem =>
    by_cases hk : t.live elem.1
    · exact (if_pos ((hins _).2 hk)).trans (if_pos hk).symm
    · exact (if_neg (mt (hins _).1 hk)).trans (if_neg hk).symm
  | erase key => rfl
  | index key =>
    by_cases hk : t.live key
    · obtain ⟨v, hv⟩ := hk
      exact (if_neg (h.shape.find_of_mem h.uniq hv).2.2).trans (if_pos ⟨v, hv⟩).symm
    · exact ((if_pos (h.shape.find_of_not_live hk)).trans
        (if_neg (mt (hins _).1 hk))).trans (if_neg hk).symm

theorem removed_eq_erasesPresentKey [DecidableEq K] [Inhabited V] {t : HashMap K V}
    (h : Inv t) (op : Op K V) : t.removed op = t.erasesPresentKey op := by
  cases op with
  | insert elem => rfl
  | index key => rfl
  | erase key =>
    by_cases hk : t.live key
    · obtain ⟨v, hv⟩ := hk
      have hc : (key, v) ∈ t.table.getD (t.hasher key % t.max_size) [] :=
        (h.shape.mem_entries_iff (key, v)).1 hv
      have hne : ¬ (t.table.getD (t.hasher key % t.max_size) []).isEmpty = true := by
        cases hl : t.table.getD (t.hasher key % t.max_size) [] with
        | nil => rw [hl] at hc; cases hc
        | cons a l => simp
      have hsome : (eraseLoop key (t.table.getD (t.hasher key % t.max_size) [])).isSome
          = true := by
        cases hl : eraseLoop key (t.table.getD (t.hasher key % t.max_size) []) with
        | none =>
          exact absurd (List.mem_map_of_mem Prod.fst hc) ((eraseLoop_eq_none_iff _ _).1 hl)
        | some l => rfl
      exact ((if_neg hne).trans (if_pos hsome)).trans (if_pos ⟨v, hv⟩).symm
    · have hn : eraseLoop key (t.table.getD (t.hasher key % t.max_size) []) = none :=
        (eraseLoop_eq_none_iff _ _).2 (mt (h.shape.live_iff key).2 hk)
      have hr : t.removed (Op.erase key) = 0 := by
        unfold removed
        simp only [hn]
        split <;> rfl
      exact hr.trans (if_neg hk).symm

theorem totals_eq [DecidableEq K] [Inhabited V] (ops : List (Op K V)) {t : HashMap K V}
    (h : Inv t) :
    t.addedTotal ops = t.insertsNewKeyTotal ops
      ∧ t.removedTotal ops = t.erasesPresentKeyTotal ops := by
  induction ops generalizing t with
  | nil => exact ⟨rfl, rfl⟩
  | cons op rest ih =>
    obtain ⟨i1, i2⟩ := ih (step_spec h op).1
    constructor
    · show t.added op + (t.step op).addedTotal rest
        = t.insertsNewKey op + (t.step op).insertsNewKeyTotal rest
      rw [added_eq_insertsNewKey h op, i1]
    · show t.removed op + (t.step op).removedTotal rest
        = t.erasesPresentKey op + (t.step op).erasesPresentKeyTotal rest
      rw [removed_eq_erasesPresentKey h op, i2]

theorem Reachable.run [DecidableEq K] [Inhabited V] {defaultHash : K → Nat} {t : HashMap K V}
    (h : Reachable defaultHash t) (ops : List (Op K V)) : Reachable defaultHash (t.run ops) := by
  induction ops generalizing t with
  | nil => exact h
  | cons op rest ih =>
    cases op with
    | insert elem => exact ih (Reachable.insert elem h)
    | erase key => exact ih (Reachable.erase key h)
    | index key => exact ih (Reachable.index key h)

theorem reachable_iff_run [DecidableEq K] [Inhabited V] (defaultHash : K → Nat)
    (t : HashMap K V) :
    Reachable defaultHash t ↔ ∃ ops : List (Op K V), (mk0 defaultHash).run ops = t := by
  constructor
  · intro h
    induction h with
    | init => exact ⟨[], rfl⟩
    | insert elem _ ih =>
      obtain ⟨ops, ho⟩ := ih
      exact ⟨ops ++ [Op.insert elem], by simp [HashMap.run, List.foldl_append] at ho ⊢; rw [ho]; rfl⟩
    | erase key _ ih =>
      obtain ⟨ops, ho⟩ := ih
      exact ⟨ops ++ [Op.erase key], by simp [HashMap.run, List.foldl_append] at ho ⊢; rw [ho]; rfl⟩
    | index key _ ih =>
      obtain ⟨ops, ho⟩ := ih
      exact ⟨ops ++ [Op.index key], by simp [HashMap.run, List.foldl_append] at ho ⊢; rw [ho]; rfl⟩
  · rintro ⟨ops, rfl⟩
    exact Reachable.init.run ops

end Calls

/-! ## Inserting the keys `1 .. n` -/

section Keys

variable {V : Type}

theorem insertKeys_spec (defaultHash : Nat → Nat) (val : Nat → V) (n : Nat) :
    Inv (insertKeys defaultHash val n) ∧ (insertKeys defaultHash val n).sz = n
      ∧ ∀ k v, (k, v) ∈ (insertKeys defaultHash val n).entries ↔ (1 ≤ k ∧ k ≤ n ∧ v = val k) := by
  induction n with
  | zero =>
    refine ⟨mk0_inv defaultHash, rfl, fun k v => ?_⟩
    show (k, v) ∈ (mk0 defaultHash : HashMap Nat V).entries ↔ _
    rw [mk0_entries]
    constructor
    · intro h
      cases h
    · rintro ⟨h1, h2, _⟩
      omega
  | succ n ih =>
    obtain ⟨i1, i2, i3⟩ := ih
    have hk : ¬ (insertKeys defaultHash val n).live (n + 1) := by
      rintro ⟨v, hv⟩
      have := ((i3 _ _).1 hv).2.1
      omega
    obtain ⟨g1, g2, g3, _, _⟩ := insert_of_not_live i1 (n + 1, val (n + 1)) hk
    refine ⟨g1, g2.trans (by rw [i2]), fun k v => ?_⟩
    show (k, v) ∈ ((insertKeys defaultHash val n).insert (n + 1, val (n + 1))).entries ↔ _
    rw [g3.mem_iff, List.mem_cons, i3]
    constructor
    · rintro (h | ⟨h1, h2, h3⟩)
      · obtain ⟨rfl, rfl⟩ := Prod.mk.inj h
        exact ⟨by omega, Nat.le_refl _, rfl⟩
      · exact ⟨h1, by omega, h3⟩
    · rintro ⟨h1, h2, h3⟩
      by_cases hkn : k = n + 1
      · left
        rw [h3, hkn]
      · right
        exact ⟨h1, by omega, h3⟩

theorem insertKeys_max_size_succ (defaultHash : Nat → Nat) (val : Nat → V) (n : Nat) :
    (insertKeys defaultHash val (n + 1)).max_size =
      if 2 * (insertKeys defaultHash val n).max_size < n + 1
      then 4 * (insertKeys defaultHash val n).max_size
      else (insertKeys defaultHash val n).max_size := by
  obtain ⟨i1, i2, i3⟩ := insertKeys_spec defaultHash val n
  have hk : ¬ (insertKeys defaultHash val n).live (n + 1) := by
    rintro ⟨v, hv⟩
    have := ((i3 _ _).1 hv).2.1
    omega
  have := (insert_of_not_live i1 (n + 1, val (n + 1)) hk).2.2.2.2
  rw [i2] at this
  exact this

theorem insertKeys_max_size_le (defaultHash : Nat → Nat) (val : Nat → V) (n : Nat)
    (hn : n ≤ 200) : (insertKeys defaultHash val n).max_size = 100 := by
  induction n with
  | zero => rfl
  | succ n ih =>
    rw [insertKeys_max_size_succ, ih (by omega), if_neg (by omega)]

theorem insertKeys_max_size_201 (defaultHash : Nat → Nat) (val : Nat → V) :
    (insertKeys defaultHash val 201).max_size = 400 := by
  rw [insertKeys_max_size_succ, insertKeys_max_size_le defaultHash val 200 (Nat.le_refl _),
    if_pos (by omega)]

theorem insertKeys_find (defaultHash : Nat → Nat) (val : Nat → V) (n k : Nat) (h1 : 1 ≤ k)
    (h2 : k ≤ n) :
    (insertKeys defaultHash val n).find k ≠ (insertKeys defaultHash val n).end_
      ∧ (insertKeys defaultHash val n).deref ((insertKeys defaultHash val n).find k)
          = some (k, val k) := by
  obtain ⟨i1, _, i3⟩ := insertKeys_spec defaultHash val n
  obtain ⟨_, g2, g3⟩ := i1.shape.find_of_mem i1.uniq ((i3 k (val k)).2 ⟨h1, h2, rfl⟩)
  exact ⟨g3, g2⟩

theorem insertKeys_reachable [Inhabited V] (defaultHash : Nat → Nat) (val : Nat → V)
    (n : Nat) : Reachable defaultHash (insertKeys defaultHash val n) := by
  induction n with
  | zero => exact Reachable.init
  | succ n ih => exact Reachable.insert (n + 1, val (n + 1)) ih

theorem insertKeys_not_live (defaultHash : Nat → Nat) (val : Nat → V) (n k : Nat)
    (hk : n < k) : ¬ (insertKeys defaultHash val n).live k := by
  rintro ⟨v, hv⟩
  have := (((insertKeys_spec defaultHash val n).2.2 k v).1 hv).2.1
  omega

theorem RebuildSite.size_eq {K : Type} [DecidableEq K] [Inhabited V]
    {defaultHash : K → Nat} {t : HashMap K V} (h : RebuildSite defaultHash t) :
    t.sz = t.entries.length := by
  cases h with
  | called hr => exact hr.inv.1.size
  | line75 elem hr _ =>
    rw [place_sz, (hr.inv.1.shape.place_entries elem).length_eq, List.length_cons,
      hr.inv.1.size]

theorem crowded_spec :
    Shape crowded ∧ Uniqueness crowded ∧ SizeAccounting crowded ∧ grows crowded := by
  obtain ⟨i1, i2, i3⟩ := insertKeys_spec (fun k => k) (fun i => i) 200
  have hm := insertKeys_max_size_le (fun k => k) (fun i => i) 200 (Nat.le_refl _)
  have hp := i1.shape.place_entries (201, 201)
  refine ⟨i1.shape.place (201, 201), ?_, ?_, ?_⟩
  · refine ((hp.map Prod.fst).nodup_iff).2 ?_
    rw [List.map_cons, List.nodup_cons]
    refine ⟨fun hmem => ?_, i1.uniq⟩
    obtain ⟨e, he, hee⟩ := List.mem_map.1 hmem
    have := ((i3 e.1 e.2).1 he).2.1
    simp only at hee
    omega
  · show (insertKeys (fun k => k) (fun i => i) 200).sz + 1 = (List.map List.length crowded.table).sum
    rw [← List.length_flatten]
    show _ = crowded.entries.length
    rw [crowded, hp.length_eq, List.length_cons, ← i1.size]
  · have hsz : crowded.sz = 201 := by rw [crowded, place_sz, i2]
    have hms : crowded.max_size = 100 := by rw [crowded, place_max_size, hm]
    unfold grows
    rw [hsz, hms]
    decide

end Keys

/-! ## `begin`, `operator++` and the traversal -/

section Iteration

variable {K V : Type}

theorem flatten_drop (tb : List (List (K × V))) (r : Nat) :
    (tb.drop r).flatten = tb.getD r [] ++ (tb.drop (r + 1)).flatten := by
  rcases Nat.lt_or_ge r tb.length with h | h
  · rw [List.drop_eq_getElem_cons h, List.flatten_cons, List.getD_eq_getElem _ _ h]
  · rw [getD_of_length_le tb h, List.drop_of_length_le h,
      List.drop_of_length_le (Nat.le_succ_of_le h)]
    rfl

theorem skipLoop_spec (t : HashMap K V) (fuel r : Nat) (hr : r ≤ t.max_size)
    (hf : t.max_size - r < fuel) :
    ∃ r', skipLoop t fuel r = some r' ∧ r ≤ r' ∧ r' ≤ t.max_size
      ∧ (r' ≠ t.max_size → t.table.getD r' [] ≠ [])
      ∧ (t.table.drop r).flatten = (t.table.drop r').flatten := by
  induction fuel generalizing r with
  | zero => omega
  | succ fuel ih =>
    by_cases hc : r ≠ t.max_size ∧ (t.table.getD r []).isEmpty = true
    · obtain ⟨r', h1, h2, h3, h4, h5⟩ := ih (r + 1) (by omega) (by omega)
      refine ⟨r', ?_, by omega, h3, h4, ?_⟩
      · rw [skipLoop, if_pos hc]
        exact h1
      · rw [flatten_drop, List.isEmpty_iff.1 hc.2, List.nil_append]
        exact h5
    · refine ⟨r, ?_, Nat.le_refl _, hr, ?_, rfl⟩
      · rw [skipLoop, if_neg hc]
      · intro hne hnil
        exact hc ⟨hne, by rw [hnil]; rfl⟩

theorem Shape.remaining_end {t : HashMap K V} (h : Shape t) : t.remaining t.end_ = [] := by
  unfold remaining end_
  simp only [List.drop_length, List.nil_append]
  rw [List.drop_of_length_le (by rw [h.len]), List.flatten_nil]

theorem Shape.flatten_drop_max {t : HashMap K V} (h : Shape t) :
    (t.table.drop t.max_size).flatten = [] := by
  rw [flatten_drop, h.sentinel, List.nil_append,
    List.drop_of_length_le (by rw [h.len]), List.flatten_nil]

theorem dereferenceable_ne_end {t : HashMap K V} {it : iterator} (hd : t.dereferenceable it) :
    it ≠ t.end_ := by
  intro heq
  have := congrArg iterator.row heq
  exact absurd this (Nat.ne_of_lt hd.1)

theorem Shape.begin_spec {t : HashMap K V} (h : Shape t) :
    ∃ b, t.begin = some b ∧ (b = t.end_ ∨ t.dereferenceable b) ∧ t.remaining b = t.entries := by
  obtain ⟨r, h1, _, h3, h4, h5⟩ := skipLoop_spec t (t.max_size + 1) 0 (Nat.zero_le _) (by omega)
  rw [List.drop_zero] at h5
  by_cases hr : r = t.max_size
  · refine ⟨t.end_, ?_, Or.inl rfl, ?_⟩
    · rw [begin, h1]
      simp only [hr, if_true]
      rfl
    · rw [h.remaining_end, entries, h5, hr, h.flatten_drop_max]
  · refine ⟨⟨r, 0⟩, ?_, Or.inr ⟨Nat.lt_of_le_of_ne h3 hr, ?_⟩, ?_⟩
    · rw [begin, h1]
      simp only [hr, if_false]
    · exact List.length_pos.2 (h4 hr)
    · rw [remaining, List.drop_zero, ← flatten_drop, entries, h5]

theorem Shape.increment_spec {t : HashMap K V} (h : Shape t) {it : iterator}
    (hd : t.dereferenceable it) :
    ∃ e it1, t.deref it = some e ∧ t.increment it = some it1
      ∧ (it1 = t.end_ ∨ t.dereferenceable it1) ∧ t.remaining it = e :: t.remaining it1 := by
  obtain ⟨hrow, hpos⟩ := hd
  refine ⟨(t.table.getD it.row [])[it.pos], ?_⟩
  have hde : t.deref it = some (t.table.getD it.row [])[it.pos] := by
    rw [deref, List.getElem?_eq_getElem hpos]
  have hrem : t.remaining it = (t.table.getD it.row [])[it.pos]
      :: ((t.table.getD it.row []).drop (it.pos + 1) ++ (t.table.drop (it.row + 1)).flatten) := by
    rw [remaining, List.drop_eq_getElem_cons hpos, List.cons_append]
  by_cases hc : it.pos + 1 = (t.table.getD it.row []).length ∧ it.row ≠ t.max_size
  · obtain ⟨r, h1, _, h3, h4, h5⟩ :=
      skipLoop_spec t (t.max_size + 1) (it.row + 1) (by omega) (by omega)
    have hdrop : (t.table.getD it.row []).drop (it.pos + 1) = [] :=
      List.drop_of_length_le (by omega)
    rw [hdrop, List.nil_append, h5] at hrem
    by_cases hr : r = t.max_size
    · refine ⟨t.end_, hde, ?_, Or.inl rfl, ?_⟩
      · rw [increment]
        simp only [hc, and_self, if_true, h1, hr, ne_eq, not_false_eq_true]
        rfl
      · rw [hrem, hr, h.flatten_drop_max, h.remaining_end]
    · refine ⟨⟨r, 0⟩, hde, ?_, Or.inr ⟨Nat.lt_of_le_of_ne h3 hr, List.length_pos.2 (h4 hr)⟩, ?_⟩
      · rw [increment]
        simp only [hc, and_self, if_true, h1, hr, if_false, ne_eq, not_false_eq_true]
      · rw [hrem, remaining, List.drop_zero, ← flatten_drop]
  · refine ⟨⟨it.row, it.pos + 1⟩, hde, ?_, Or.inr ⟨hrow, ?_⟩, hrem⟩
    · rw [increment]
      simp only [hc, if_false]
    · show it.pos + 1 < (t.table.getD it.row []).length
      have : ¬ it.pos + 1 = (t.table.getD it.row []).length := fun h1 =>
        hc ⟨h1, Nat.ne_of_lt hrow⟩
      omega

theorem Shape.iterate_spec {t : HashMap K V} (h : Shape t) (n : Nat) (it : iterator)
    (hv : it = t.end_ ∨ t.dereferenceable it) (hn : (t.remaining it).length = n) :
    t.advance n it = some t.end_ ∧ t.visitLoop (n + 1) it = some (t.remaining it)
      ∧ ∀ j, j < n → ∃ itj e, t.advance j it = some itj ∧ itj ≠ t.end_
          ∧ t.deref itj = some e ∧ (t.remaining it)[j]? = some e := by
  induction n generalizing it with
  | zero =>
    have hend : it = t.end_ := by
      rcases hv with hv | hv
      · exact hv
      · obtain ⟨e, it1, _, _, _, h4⟩ := h.increment_spec hv
        rw [h4] at hn
        cases hn
    subst hend
    refine ⟨rfl, ?_, fun j hj => absurd hj (Nat.not_lt_zero j)⟩
    rw [visitLoop, if_pos rfl, h.remaining_end]
  | succ n ih =>
    have hd : t.dereferenceable it := by
      rcases hv with hv | hv
      · rw [hv, h.remaining_end] at hn
        cases hn
      · exact hv
    obtain ⟨e, it1, h1, h2, h3, h4⟩ := h.increment_spec hd
    have hn1 : (t.remaining it1).length = n := by
      rw [h4, List.length_cons] at hn
      omega
    obtain ⟨i1, i2, i3⟩ := ih it1 h3 hn1
    refine ⟨?_, ?_, fun j hj => ?_⟩
    · rw [advance, h2]
      exact i1
    · rw [visitLoop, if_neg (dereferenceable_ne_end hd), h1, h2]
      simp only [i2, h4]
    · cases j with
      | zero => exact ⟨it, e, rfl, dereferenceable_ne_end hd, h1, by rw [h4]; simp⟩
      | succ j =>
        obtain ⟨itj, ej, g1, g2, g3, g4⟩ := i3 j (by omega)
        refine ⟨itj, ej, ?_, g2, g3, ?_⟩
        · rw [advance, h2]
          exact g1
        · rw [h4, List.getElem?_cons_succ]
          exact g4

end Iteration

/-! ## The constructors from a sequence -/

section Bulk

variable {K V : Type} [DecidableEq K]

theorem find?_key_cons (e : K × V) (l : List (K × V)) (k : K) :
    (e :: l).find? (fun x => decide (x.1 = k))
      = if e.1 = k then some e else l.find? (fun x => decide (x.1 = k)) := by
  by_cases h : e.1 = k <;> simp [List.find?_cons, h]

theorem foldl_insert_spec (l : List (K × V)) {t : HashMap K V} (h : Inv t) :
    Inv (l.foldl insert t) ∧ (l.foldl insert t).hasher = t.hasher
      ∧ ∀ k v, (k, v) ∈ (l.foldl insert t).entries ↔
          ((k, v) ∈ t.entries
            ∨ (¬ t.live k ∧ l.find? (fun x => decide (x.1 = k)) = some (k, v))) := by
  induction l generalizing t with
  | nil =>
    refine ⟨h, rfl, fun k v => ?_⟩
    simp
  | cons e rest ih =>
    rw [List.foldl_cons]
    by_cases hk : t.live e.1
    · rw [insert_of_live h.shape e hk]
      obtain ⟨i1, i2, i3⟩ := ih h
      refine ⟨i1, i2, fun k v => ?_⟩
      rw [i3 k v, find?_key_cons]
      by_cases hek : e.1 = k
      · rw [if_pos hek]
        have hl : t.live k := hek ▸ hk
        constructor
        · rintro (h1 | ⟨h1, _⟩)
          · exact Or.inl h1
          · exact absurd hl h1
        · rintro (h1 | ⟨h1, _⟩)
          · exact Or.inl h1
          · exact absurd hl h1
      · rw [if_neg hek]
    · obtain ⟨g1, _, g3, g4, _⟩ := insert_of_not_live h e hk
      obtain ⟨i1, i2, i3⟩ := ih g1
      refine ⟨i1, i2.trans g4, fun k v => ?_⟩
      rw [i3 k v, find?_key_cons, g3.mem_iff, List.mem_cons]
      have hlive : (t.insert e).live k ↔ (k = e.1 ∨ t.live k) := by
        constructor
        · rintro ⟨w, hw⟩
          rcases List.mem_cons.1 (g3.mem_iff.1 hw) with h1 | h1
          · exact Or.inl (by rw [← h1])
          · exact Or.inr ⟨w, h1⟩
        · rintro (h1 | ⟨w, hw⟩)
          · exact ⟨e.2, g3.mem_iff.2 (by rw [h1]; exact List.mem_cons_self _ _)⟩
          · exact ⟨w, g3.mem_iff.2 (List.mem_cons_of_mem _ hw)⟩
      by_cases hek : e.1 = k
      · rw [if_pos hek]
        have hnl : ¬ t.live k := hek ▸ hk
        constructor
        · rintro ((h1 | h1) | ⟨h1, _⟩)
          · exact Or.inr ⟨hnl, by rw [h1]⟩
          · exact Or.inl h1
          · exact absurd (hlive.2 (Or.inl hek.symm)) h1
        · rintro (h1 | ⟨_, h1⟩)
          · exact Or.inl (Or.inr h1)
          · exact Or.inl (Or.inl (Option.some.inj h1).symm)
      · rw [if_neg hek]
        have hne : (k, v) ≠ e := fun h1 => hek (by rw [← h1])
        have hke : ¬ k = e.1 := fun h1 => hek h1.symm
        constructor
        · rintro ((h1 | h1) | ⟨h1, h2⟩)
          · exact absurd h1 hne
          · exact Or.inl h1
          · exact Or.inr ⟨fun hl => h1 (hlive.2 (Or.inr hl)), h2⟩
        · rintro (h1 | ⟨h1, h2⟩)
          · exact Or.inl (Or.inr h1)
          · refine Or.inr ⟨fun hl => ?_, h2⟩
            rcases hlive.1 hl with h3 | h3
            · exact hke h3
            · exact h1 h3

theorem find?_key_of_mem (l : List (K × V)) (k : K) (hk : k ∈ l.map Prod.fst) :
    ∃ v, l.find? (fun x => decide (x.1 = k)) = some (k, v) := by
  induction l with
  | nil => cases hk
  | cons e rest ih =>
    rw [find?_key_cons]
    by_cases hek : e.1 = k
    · rw [if_pos hek]
      exact ⟨e.2, by rw [← hek]⟩
    · rw [if_neg hek]
      rw [List.map_cons, List.mem_cons] at hk
      rcases hk with h1 | h1
      · exact absurd h1.symm hek
      · exact ih h1

theorem find?_key_mem (l : List (K × V)) (k : K) (v : V)
    (h : l.find? (fun x => decide (x.1 = k)) = some (k, v)) : (k, v) ∈ l :=
  List.mem_of_find?_eq_some h

theorem mkRange_spec (defaultHash : K → Nat) (l : List (K × V)) :
    Inv (mkRange defaultHash l) ∧ (mkRange defaultHash l).hasher = defaultHash
      ∧ (∀ k v, (k, v) ∈ (mkRange defaultHash l).entries ↔
          l.find? (fun x => decide (x.1 = k)) = some (k, v))
      ∧ (mkRange defaultHash l).sz = (l.map Prod.fst).dedup.length := by
  obtain ⟨i1, i2, i3⟩ :=
    foldl_insert_spec l (mk0_inv defaultHash : Inv (mk0 defaultHash : HashMap K V))
  have hmem : ∀ k v, (k, v) ∈ (mkRange defaultHash l).entries ↔
      l.find? (fun x => decide (x.1 = k)) = some (k, v) := by
    intro k v
    show (k, v) ∈ (l.foldl insert (mk0 defaultHash)).entries ↔ _
    rw [i3 k v, mk0_entries]
    constructor
    · rintro (h1 | ⟨_, h1⟩)
      · cases h1
      · exact h1
    · intro h1
      refine Or.inr ⟨?_, h1⟩
      rintro ⟨w, hw⟩
      rw [mk0_entries] at hw
      cases hw
  refine ⟨i1, i2, hmem, ?_⟩
  have hset : ((mkRange defaultHash l).entries.map Prod.fst).toFinset
      = (l.map Prod.fst).toFinset := by
    ext k
    rw [List.mem_toFinset, List.mem_toFinset]
    constructor
    · intro hk
      obtain ⟨e, he, rfl⟩ := List.mem_map.1 hk
      exact List.mem_map_of_mem Prod.fst (find?_key_mem l e.1 e.2 ((hmem e.1 e.2).1 he))
    · intro hk
      obtain ⟨v, hv⟩ := find?_key_of_mem l k hk
      exact List.mem_map_of_mem Prod.fst ((hmem k v).2 hv)
  have hsz : (mkRange defaultHash l).sz = (mkRange defaultHash l).entries.length := i1.size
  have hu : ((mkRange defaultHash l).entries.map Prod.fst).Nodup := i1.uniq
  rw [hsz, ← List.card_toFinset, ← hset, List.toFinset_card_of_nodup hu, List.length_map]

end Bulk

/-! ## Order inside the chains -/

section Order

variable {K V : Type}

end Order

/-! ## Capacity, and the wider set of calls -/

section Capacity

variable {K V : Type}

theorem rebuild_grow_shape (t : HashMap K V) (h1 : DEFAULT_SIZE ≤ t.sz)
    (h2 : DEFAULT_SIZE ≤ t.max_size) (h3 : 2 * t.max_size < t.sz) :
    Shape t.rebuild ∧ t.rebuild.max_size = 4 * t.max_size ∧ t.rebuild.hasher = t.hasher := by
  have hpos : 0 < EXPAND_COEFFICIENT * t.max_size := by
    simp only [EXPAND_COEFFICIENT, DEFAULT_SIZE] at *
    omega
  have hr : t.rebuild = t.collect.foldl place
      { max_size := EXPAND_COEFFICIENT * t.max_size, sz := 0,
        table := List.replicate (EXPAND_COEFFICIENT * t.max_size + 1) [],
        hasher := t.hasher } := by
    unfold rebuild
    rw [if_neg (by omega), if_pos (by simpa [EXPAND_COEFFICIENT] using h3)]
  obtain ⟨g1, g2, g3, _, _⟩ :=
    foldl_place_spec t.collect _ (fresh_shape (EXPAND_COEFFICIENT * t.max_size) hpos t.hasher)
  rw [← hr] at g1 g2 g3
  exact ⟨g1, g2, g3⟩

theorem insert_max_size [DecidableEq K] {t : HashMap K V} (h : Inv t) (elem : K × V) :
    (t.insert elem).max_size
      = if 2 * t.max_size < (t.insert elem).sz then 4 * t.max_size else t.max_size := by
  by_cases hk : t.live elem.1
  · rw [insert_of_live h.shape elem hk, if_neg (Nat.not_lt.2 h.load)]
  · obtain ⟨_, g2, _, _, g5⟩ := insert_of_not_live h elem hk
    rw [g2]
    exact g5

theorem step_max_size [DecidableEq K] [Inhabited V] {t : HashMap K V} (h : Inv t)
    (op : Op K V) :
    (t.step op).max_size = t.max_size ∨ (t.step op).max_size = 4 * t.max_size := by
  have hins : ∀ elem : K × V,
      (t.insert elem).max_size = t.max_size ∨ (t.insert elem).max_size = 4 * t.max_size := by
    intro elem
    rw [insert_max_size h elem]
    split
    · exact Or.inr rfl
    · exact Or.inl rfl
  cases op with
  | insert elem => exact hins elem
  | erase key =>
    left
    by_cases hk : t.live key
    · obtain ⟨v, hv⟩ := hk
      exact (erase_of_live h hv).2.2.2.2
    · show (t.erase key).max_size = t.max_size
      rw [erase_of_not_live h.shape key hk]
  | index key =>
    by_cases hk : t.live key
    · obtain ⟨v, hv⟩ := hk
      left
      show (t.index key).1.max_size = t.max_size
      rw [index_of_live h hv]
    · show (t.index key).1.max_size = t.max_size ∨ (t.index key).1.max_size = 4 * t.max_size
      rw [(index_of_not_live h hk).1]
      exact hins (key, default)

theorem ReachableWide.wide_inv [DecidableEq K] [Inhabited V] {defaultHash : K → Nat}
    {t : HashMap K V} (h : ReachableWide defaultHash t) : Inv t := by
  induction h with
  | init => exact mk0_inv defaultHash
  | initHash _h => exact mk0_inv _h
  | insert elem _ ih => exact (step_spec ih (Op.insert elem)).1
  | erase key _ ih => exact (step_spec ih (Op.erase key)).1
  | index key _ ih => exact (step_spec ih (Op.index key)).1
  | clear _ _ => exact mk0_inv defaultHash
  | assign _ _ _ ih2 => exact ih2

theorem Shape.increment_row {t : HashMap K V} (it : iterator) (hrow : it.row ≤ t.max_size) :
    ∃ it1, t.increment it = some it1 ∧ it1.row ≤ t.max_size := by
  by_cases hc : it.pos + 1 = (t.table.getD it.row []).length ∧ it.row ≠ t.max_size
  · obtain ⟨r, h1, _, h3, _, _⟩ :=
      skipLoop_spec t (t.max_size + 1) (it.row + 1) (by omega) (by omega)
    by_cases hr : r = t.max_size
    · refine ⟨⟨r, (t.table.getD r []).length⟩, ?_, h3⟩
      rw [increment]
      simp only [hc, and_self, if_true, h1, hr, ne_eq, not_false_eq_true]
    · refine ⟨⟨r, 0⟩, ?_, h3⟩
      rw [increment]
      simp only [hc, and_self, if_true, h1, hr, if_false, ne_eq, not_false_eq_true]
  · refine ⟨⟨it.row, it.pos + 1⟩, ?_, hrow⟩
    rw [increment]
    simp only [hc, if_false]

theorem removed_pos [DecidableEq K] [Inhabited V] {t : HashMap K V} (h : Inv t) (key : K)
    (hr : t.removed (Op.erase key) = 1) : 0 < t.sz := by
  have hl : t.live key := by
    by_contra hk
    have hn : eraseLoop key (t.table.getD (t.hasher key % t.max_size) []) = none :=
      (eraseLoop_eq_none_iff _ _).2 (mt (h.shape.live_iff key).2 hk)
    unfold removed at hr
    simp only [hn] at hr
    split at hr <;> simp at hr
  obtain ⟨v, hv⟩ := hl
  rw [h.size]
  exact List.length_pos_of_mem hv

end Capacity

end HashMap

/-! ## The claims -/

section Claims

open HashMap

set_option maxRecDepth 100000

variable {K V : Type} [DecidableEq K] [Inhabited V]

/-- C1 (uniqueness): whatever the hash function, in every table reached from `HashMap()` by
calls of `insert`, `erase` and `operator[]`, a key occurs in at most one entry across all
chains of the bucket store. -/
theorem C1_uniqueness (defaultHash : K → Nat) (t : HashMap K V)
    (hr : Reachable defaultHash t) (k : K) :
    (t.table.flatten.map Prod.fst).count k ≤ 1 :=
  List.nodup_iff_count_le_one.1 hr.inv.1.uniq k

theorem C1_uniqueness_witness :
    Reachable (fun k => k) sample ∧ (sample.table.flatten.map Prod.fst).count 101 ≤ 1 :=
  ⟨Reachable.insert (101, 20) (Reachable.insert (1, 10) Reachable.init),
    C1_uniqueness (fun k => k) sample
      (Reachable.insert (101, 20) (Reachable.insert (1, 10) Reachable.init)) 101⟩

/-- C2 (lookup consistency): in a reachable table, when an entry `(k, v)` is live, `find(k)`
is a cursor of row `hash(k) % max_size` whose dereference is `(k, v)`, and `(k, v)` is the
only entry with key `k`; when no entry has key `k`, `find(k)` is the end cursor, of row
`max_size` and the end position of the sentinel chain. -/
theorem C2_lookup (defaultHash : K → Nat) (t : HashMap K V)
    (hr : Reachable defaultHash t) (k : K) :
    (∀ v, (k, v) ∈ t.entries →
        (∃ q, t.find k = ⟨defaultHash k % t.max_size, q⟩)
          ∧ t.deref (t.find k) = some (k, v)
          ∧ ∀ w, (k, w) ∈ t.entries → w = v)
      ∧ (¬ t.live k →
        t.find k = t.end_ ∧ t.find k = ⟨t.max_size, (t.chain t.max_size).length⟩) := by
  obtain ⟨hi, hh⟩ := hr.inv
  refine ⟨fun v hv => ?_, fun hk => ⟨hi.shape.find_of_not_live hk, hi.shape.find_of_not_live hk⟩⟩
  obtain ⟨h1, h2, _⟩ := hi.shape.find_of_mem hi.uniq hv
  rw [hh] at h1
  exact ⟨h1, h2, fun w hw => value_unique hi.uniq hw hv⟩

theorem C2_lookup_witness :
    Reachable (fun k => k) sample ∧ sample.deref (sample.find 101) = some (101, 20)
      ∧ (¬ sample.live 7 ∧ sample.find 7 = sample.end_) :=
  ⟨Reachable.insert (101, 20) (Reachable.insert (1, 10) Reachable.init),
    ((C2_lookup (fun k => k) sample
      (Reachable.insert (101, 20) (Reachable.insert (1, 10) Reachable.init)) 101).1 20
        (by decide)).2.1,
    by decide,
    ((C2_lookup (fun k => k) sample
      (Reachable.insert (101, 20) (Reachable.insert (1, 10) Reachable.init)) 7).2
        (by decide)).1⟩

/-- C3 (insert of an absent key): in a reachable table without entry of key `k`, after
`insert((k, v))` the size is one more, `find(k)` dereferences to `(k, v)`, and for every
other key the entry that `find` designates, or the fact that `find` is the end cursor, is
what it was before the call; the statement covers the calls that rehash. -/
theorem C3_insert_absent (defaultHash : K → Nat) (t : HashMap K V)
    (hr : Reachable defaultHash t) (k : K) (v : V) (hk : ¬ t.live k) :
    (t.insert (k, v)).size = t.size + 1
      ∧ (t.insert (k, v)).deref ((t.insert (k, v)).find k) = some (k, v)
      ∧ ∀ k', k' ≠ k →
        (t.insert (k, v)).deref ((t.insert (k, v)).find k') = t.deref (t.find k')
          ∧ ((t.insert (k, v)).find k' = (t.insert (k, v)).end_ ↔ t.find k' = t.end_) := by
  have hi := hr.inv.1
  obtain ⟨g1, g2, g3, _, _⟩ := insert_of_not_live hi (k, v) hk
  refine ⟨g2, ?_, fun k' hne => ?_⟩
  · exact (g1.shape.find_of_mem g1.uniq (g3.symm.subset (List.mem_cons_self _ _))).2.1
  · refine lookup_congr hi g1 k' (fun w => ?_)
    rw [g3.mem_iff, List.mem_cons]
    constructor
    · rintro (h1 | h1)
      · exact absurd (Prod.mk.inj h1).1 hne
      · exact h1
    · exact Or.inr

theorem C3_insert_absent_witness :
    Reachable (fun k => k) sample ∧ ¬ sample.live 7
      ∧ (sample.insert (7, 70)).size = sample.size + 1
      ∧ (sample.insert (7, 70)).deref ((sample.insert (7, 70)).find 101)
          = sample.deref (sample.find 101) :=
  ⟨Reachable.insert (101, 20) (Reachable.insert (1, 10) Reachable.init), by decide,
    (C3_insert_absent (fun k => k) sample
      (Reachable.insert (101, 20) (Reachable.insert (1, 10) Reachable.init)) 7 70
        (by decide)).1,
    ((C3_insert_absent (fun k => k) sample
      (Reachable.insert (101, 20) (Reachable.insert (1, 10) Reachable.init)) 7 70
        (by decide)).2.2 101 (by decide)).1⟩

/-- C4 (insert of an existing key): in a reachable table with an entry of key `k`,
`insert((k, v))` returns the table it was given: bucket store, `sz`, `max_size` and hash
function are the same, so the stored value stays and nothing is rehashed. -/
theorem C4_insert_existing (defaultHash : K → Nat) (t : HashMap K V)
    (hr : Reachable defaultHash t) (k : K) (v : V) (hk : t.live k) :
    t.insert (k, v) = t :=
  insert_of_live hr.inv.1.shape (k, v) hk

theorem C4_insert_existing_witness :
    Reachable (fun k => k) sample ∧ sample.live 101 ∧ sample.insert (101, 99) = sample :=
  ⟨Reachable.insert (101, 20) (Reachable.insert (1, 10) Reachable.init), by decide,
    C4_insert_existing (fun k => k) sample
      (Reachable.insert (101, 20) (Reachable.insert (1, 10) Reachable.init)) 101 99
        (by decide)⟩

/-- C5 (size accounting): after any trace of `insert`, `erase` and `operator[]` calls on
`HashMap()`, `size()` is the sum of the chain lengths, and it is the number of calls that
inserted a key no entry had before the call (`insert`, directly or through `operator[]`)
minus the number of calls of `erase` on a key some entry had before the call; `empty()`
holds exactly when that number is 0.  These two numbers are also the number of calls that
reached `push_back` on line 73 and the number of calls that reached line 37. -/
theorem C5_size_accounting (defaultHash : K → Nat) (ops : List (Op K V)) :
    ((mk0 defaultHash).run ops).size = ((((mk0 defaultHash).run ops).table).map List.length).sum
      ∧ (mk0 defaultHash).erasesPresentKeyTotal ops ≤ (mk0 defaultHash).insertsNewKeyTotal ops
      ∧ ((mk0 defaultHash).run ops).size
          = (mk0 defaultHash).insertsNewKeyTotal ops
            - (mk0 defaultHash).erasesPresentKeyTotal ops
      ∧ (((mk0 defaultHash).run ops).empty = true
          ↔ (mk0 defaultHash).insertsNewKeyTotal ops
            - (mk0 defaultHash).erasesPresentKeyTotal ops = 0)
      ∧ (mk0 defaultHash).addedTotal ops = (mk0 defaultHash).insertsNewKeyTotal ops
      ∧ (mk0 defaultHash).removedTotal ops = (mk0 defaultHash).erasesPresentKeyTotal ops := by
  obtain ⟨h1, h2⟩ := run_spec ops (mk0_inv defaultHash)
  obtain ⟨e1, e2⟩ := totals_eq ops (mk0_inv defaultHash : Inv (mk0 defaultHash : HashMap K V))
  have h0 : (mk0 defaultHash : HashMap K V).sz = 0 := rfl
  rw [h0, e1, e2] at h2
  have h3 := h1.size
  rw [entries, List.length_flatten] at h3
  refine ⟨h3, by omega, by show ((mk0 defaultHash).run ops).sz = _; omega, ?_, e1, e2⟩
  simp only [HashMap.empty, beq_iff_eq]
  omega

/-- C6 (erase): in a reachable table, when an entry of key `k` is live, after `erase(k)`
`find(k)` is the end cursor, the size is one less, and every other key has the entry (or
the absence) it had; when no entry has key `k`, `erase(k)` returns the table it was given;
`max_size` is the same in both cases.  `erase` is total, it has no failing outcome. -/
theorem C6_erase (defaultHash : K → Nat) (t : HashMap K V)
    (hr : Reachable defaultHash t) (k : K) :
    (t.live k →
        (t.erase k).find k = (t.erase k).end_
          ∧ (t.erase k).size + 1 = t.size
          ∧ ∀ k', k' ≠ k →
            (t.erase k).deref ((t.erase k).find k') = t.deref (t.find k')
              ∧ ((t.erase k).find k' = (t.erase k).end_ ↔ t.find k' = t.end_))
      ∧ (¬ t.live k → t.erase k = t)
      ∧ (t.erase k).max_size = t.max_size
      ∧ (t.erase k).table.length = t.table.length := by
  have hi := hr.inv.1
  by_cases hk : t.live k
  · obtain ⟨v, hv⟩ := hk
    obtain ⟨g1, g2, g3, _, g5⟩ := erase_of_live hi hv
    have hnd := ((g3.map Prod.fst).nodup_iff).1 hi.uniq
    rw [List.map_cons, List.nodup_cons] at hnd
    refine ⟨fun _ => ⟨?_, g2, fun k' hne => ?_⟩, fun hn => absurd ⟨v, hv⟩ hn, g5, ?_⟩
    · refine g1.shape.find_of_not_live ?_
      rintro ⟨w, hw⟩
      have hkw : k ∈ (t.erase k).entries.map Prod.fst := List.mem_map_of_mem Prod.fst hw
      exact hnd.1 hkw
    · refine lookup_congr hi g1 k' (fun w => ?_)
      rw [g3.mem_iff, List.mem_cons]
      constructor
      · exact Or.inr
      · rintro (h1 | h1)
        · exact absurd (Prod.mk.inj h1).1 hne
        · exact h1
    · rw [g1.shape.len, hi.shape.len, g5]
  · have he := erase_of_not_live hi.shape k hk
    exact ⟨fun h => absurd h hk, fun _ => he, by rw [he], by rw [he]⟩

theorem C6_erase_witness :
    Reachable (fun k => k) sample ∧ sample.live 1
      ∧ (sample.erase 1).find 1 = (sample.erase 1).end_
      ∧ (sample.erase 1).deref ((sample.erase 1).find 101) = sample.deref (sample.find 101) :=
  ⟨Reachable.insert (101, 20) (Reachable.insert (1, 10) Reachable.init), by decide,
    ((C6_erase (fun k => k) sample
      (Reachable.insert (101, 20) (Reachable.insert (1, 10) Reachable.init)) 1).1
        (by decide)).1,
    (((C6_erase (fun k => k) sample
      (Reachable.insert (101, 20) (Reachable.insert (1, 10) Reachable.init)) 1).1
        (by decide)).2.2 101 (by decide)).1⟩

/-- C7 (checked access): in a reachable table `at(k)` ends in `std::out_of_range` exactly
when no entry has key `k`, and returns `v` when the entry `(k, v)` is live.  `at` is a
`const` member: its model reads the table and returns no new state. -/
theorem C7_at (defaultHash : K → Nat) (t : HashMap K V)
    (hr : Reachable defaultHash t) (k : K) :
    (t.at_ k = Except.error Failure.out_of_range ↔ ¬ t.live k)
      ∧ (∀ v, (k, v) ∈ t.entries → t.at_ k = Except.ok v) := by
  have hi := hr.inv.1
  have hok : ∀ v, (k, v) ∈ t.entries → t.at_ k = Except.ok v := by
    intro v hv
    obtain ⟨_, h2, h3⟩ := hi.shape.find_of_mem hi.uniq hv
    unfold at_
    rw [if_neg h3, h2]
  refine ⟨⟨fun h hk => ?_, fun hk => ?_⟩, hok⟩
  · obtain ⟨v, hv⟩ := hk
    rw [hok v hv] at h
    cases h
  · unfold at_
    rw [if_pos (hi.shape.find_of_not_live hk)]

theorem C7_at_witness :
    Reachable (fun k => k) sample ∧ sample.at_ 101 = Except.ok 20
      ∧ sample.at_ 7 = Except.error Failure.out_of_range :=
  ⟨Reachable.insert (101, 20) (Reachable.insert (1, 10) Reachable.init),
    (C7_at (fun k => k) sample
      (Reachable.insert (101, 20) (Reachable.insert (1, 10) Reachable.init)) 101).2 20
        (by decide),
    (C7_at (fun k => k) sample
      (Reachable.insert (101, 20) (Reachable.insert (1, 10) Reachable.init)) 7).1.2
        (by decide)⟩

/-- C8 (indexed access): in a reachable table, when no entry has key `k`, `operator[](k)`
adds the entry `(k, ValueType())` to the entries, makes the size one more, returns the
default value, and `find(k)` is not the end cursor afterwards (rehashing calls included);
when `(k, v)` is live it returns `v` and the table it was given. -/
theorem C8_index (defaultHash : K → Nat) (t : HashMap K V)
    (hr : Reachable defaultHash t) (k : K) :
    (¬ t.live k →
        List.Perm (t.index k).1.entries ((k, default) :: t.entries)
          ∧ (t.index k).1.size = t.size + 1
          ∧ (t.index k).2 = some default
          ∧ (t.index k).1.find k ≠ (t.index k).1.end_)
      ∧ (∀ v, (k, v) ∈ t.entries → t.index k = (t, some v)) := by
  have hi := hr.inv.1
  refine ⟨fun hk => ?_, fun v hv => index_of_live hi hv⟩
  obtain ⟨e1, e2⟩ := index_of_not_live hi hk
  obtain ⟨g1, g2, g3, _, _⟩ := insert_of_not_live hi (k, default) hk
  rw [e1]
  refine ⟨g3, g2, e2, ?_⟩
  exact (g1.shape.find_of_mem g1.uniq (g3.symm.subset (List.mem_cons_self _ _))).2.2

theorem C8_index_witness :
    Reachable (fun k => k) sample ∧ ¬ sample.live 7
      ∧ (sample.index 7).2 = some 0 ∧ sample.index 101 = (sample, some 20) :=
  ⟨Reachable.insert (101, 20) (Reachable.insert (1, 10) Reachable.init), by decide,
    ((C8_index (fun k => k) sample
      (Reachable.insert (101, 20) (Reachable.insert (1, 10) Reachable.init)) 7).1
        (by decide)).2.2.1,
    (C8_index (fun k => k) sample
      (Reachable.insert (101, 20) (Reachable.insert (1, 10) Reachable.init)) 101).2 20
        (by decide)⟩

end Claims

section GrowthClaims

open HashMap

set_option maxRecDepth 100000

variable {K V : Type} [DecidableEq K]

/-- C9, the claim as stated fails: with the identity hash, after `insert` of the 101 keys
`1 .. 101` into `HashMap()` the capacity is 100, not 400 (line 48 compares 101 with 200). -/
theorem C9_growth_example_counterexample :
    ¬ ((insertKeys (fun k => k) (fun i => i) 101).max_size = 400
        ∧ ∀ k, 1 ≤ k → k ≤ 101 →
          (insertKeys (fun k => k) (fun i => i) 101).find k
            ≠ (insertKeys (fun k => k) (fun i => i) 101).end_) := by
  rintro ⟨h, _⟩
  rw [insertKeys_max_size_le (fun k => k) (fun i => i) 101 (by decide)] at h
  exact absurd h (by decide)

/-- C9 as amended: inserting the distinct keys `1, 2, 3, ...` in order into `HashMap()`
(capacity 100, `EXPAND_COEFFICIENT` 4), whatever the hash function and the values, the
capacity is still 100 after the 101st and after the 200th insert, it is 400 after the
201st insert, whose size 201 exceeds `2 * 100`, and every key `k` of `1 .. 201` is then
found by `find` with its value (as every key of `1 .. 101` is after the 101st insert). -/
theorem C9_growth_at_201 (defaultHash : Nat → Nat) (val : Nat → V) (k : Nat) (h1 : 1 ≤ k)
    (h2 : k ≤ 201) :
    (insertKeys defaultHash val 101).max_size = 100
      ∧ (insertKeys defaultHash val 200).max_size = 100
      ∧ (insertKeys defaultHash val 201).max_size = 400
      ∧ (insertKeys defaultHash val 201).size = 201
      ∧ (insertKeys defaultHash val 201).find k ≠ (insertKeys defaultHash val 201).end_
      ∧ (insertKeys defaultHash val 201).deref ((insertKeys defaultHash val 201).find k)
          = some (k, val k)
      ∧ (k ≤ 101 →
          (insertKeys defaultHash val 101).find k ≠ (insertKeys defaultHash val 101).end_
            ∧ (insertKeys defaultHash val 101).deref ((insertKeys defaultHash val 101).find k)
                = some (k, val k)) :=
  ⟨insertKeys_max_size_le defaultHash val 101 (by decide),
    insertKeys_max_size_le defaultHash val 200 (by decide),
    insertKeys_max_size_201 defaultHash val,
    (insertKeys_spec defaultHash val 201).2.1,
    (insertKeys_find defaultHash val 201 k h1 h2).1,
    (insertKeys_find defaultHash val 201 k h1 h2).2,
    fun h3 => insertKeys_find defaultHash val 101 k h1 h3⟩

theorem C9_growth_at_201_witness :
    (1 ≤ 7 ∧ 7 ≤ 201) ∧ (insertKeys (fun k => k) (fun i => i) 201).max_size = 400
      ∧ (insertKeys (fun k => k) (fun i => i) 201).deref
          ((insertKeys (fun k => k) (fun i => i) 201).find 7) = some (7, 7) :=
  ⟨by decide,
    (C9_growth_at_201 (fun k => k) (fun i => i) 7 (by decide) (by decide)).2.2.1,
    (C9_growth_at_201 (fun k => k) (fun i => i) 7 (by decide) (by decide)).2.2.2.2.2.1⟩

/-- In the model `rebuild()` recounts: on the state `unaccounted` (101 empty chains,
`sz = 201`), which satisfies placement and uniqueness but which no sequence of calls
produces, the size goes from 201 to 0, the number of entries that lines 59-63 push back. -/
theorem rebuild_recounts_unaccounted :
    Placement unaccounted ∧ Uniqueness unaccounted ∧ grows unaccounted
      ∧ unaccounted.rebuild.max_size = 400
      ∧ unaccounted.size = 201 ∧ unaccounted.rebuild.size = 0 := by
  refine ⟨⟨fun i e he => ?_, by decide⟩, by unfold Uniqueness; decide, by unfold grows; decide,
    by decide, rfl, by decide⟩
  change e ∈ (List.replicate 101 ([] : List (Nat × Nat))).getD i [] at he
  rw [getD_replicate_nil] at he
  cases he

/-- C10 (growth correctness): on a state that satisfies placement and uniqueness and on
which `rebuild()` reallocates, the rehash multiplies the capacity by `EXPAND_COEFFICIENT`,
keeps the multiset of entries, every entry `(k, v)` of the old store is the one that
`find(k)` designates in the new store, and `size()` becomes the number of entries; it is
left unchanged on every state on which the code runs `rebuild()` (a reachable table, or
the state at line 75 of `insert`), as on every state whose `sz` is the sum of its chain
lengths. -/
theorem C10_growth_correct [Inhabited V] (t : HashMap K V) (hp : Placement t)
    (hu : Uniqueness t) (hg : grows t) :
    t.rebuild.max_size = EXPAND_COEFFICIENT * t.max_size
      ∧ (t.rebuild.entries : Multiset (K × V)) = (t.entries : Multiset (K × V))
      ∧ (∀ k v, (k, v) ∈ t.entries →
          t.rebuild.find k ≠ t.rebuild.end_
            ∧ t.rebuild.deref (t.rebuild.find k) = some (k, v))
      ∧ t.rebuild.size = t.entries.length
      ∧ (∀ defaultHash : K → Nat, RebuildSite defaultHash t → t.rebuild.size = t.size)
      ∧ (SizeAccounting t → t.rebuild.size = t.size) := by
  obtain ⟨hg1, hg2⟩ := hg
  have hE : EXPAND_COEFFICIENT = 4 := rfl
  rw [hE] at hg2
  have h1 : DEFAULT_SIZE ≤ t.sz := by omega
  have h2 : DEFAULT_SIZE ≤ t.max_size := by omega
  have h3 : 2 * t.max_size < t.sz := by omega
  obtain ⟨g1, g2, _, g4, g5⟩ := rebuild_of_grow t h1 h2 h3 (fun i e he => (hp.1 i e he).2)
  have hu' : Uniqueness t.rebuild := hu.of_perm g5
  refine ⟨by rw [g2, hE], Multiset.coe_eq_coe.2 g5, fun k v hv => ?_, g4,
    fun defaultHash hsite => g4.trans hsite.size_eq.symm, fun hs => ?_⟩
  · obtain ⟨_, f2, f3⟩ := g1.find_of_mem hu' (g5.symm.subset hv)
    exact ⟨f3, f2⟩
  · have hs' : t.sz = t.entries.length := by
      rw [entries, List.length_flatten]
      exact hs
    exact g4.trans hs'.symm

theorem C10_growth_correct_witness :
    (Placement crowded ∧ Uniqueness crowded ∧ grows crowded)
      ∧ RebuildSite (fun k => k) crowded
      ∧ crowded.rebuild.size = crowded.size
      ∧ crowded.rebuild.max_size = EXPAND_COEFFICIENT * crowded.max_size :=
  ⟨⟨crowded_spec.1.placement, crowded_spec.2.1, crowded_spec.2.2.2⟩,
    RebuildSite.line75 (201, 201) (insertKeys_reachable (fun k => k) (fun i => i) 200)
      (insertKeys_not_live (fun k => k) (fun i => i) 200 201 (by decide)),
    (C10_growth_correct crowded crowded_spec.1.placement crowded_spec.2.1
      crowded_spec.2.2.2).2.2.2.2.1 (fun k => k)
        (RebuildSite.line75 (201, 201) (insertKeys_reachable (fun k => k) (fun i => i) 200)
          (insertKeys_not_live (fun k => k) (fun i => i) 200 201 (by decide))),
    (C10_growth_correct crowded crowded_spec.1.placement crowded_spec.2.1
      crowded_spec.2.2.2).1⟩

end GrowthClaims

section IterationClaims

open HashMap

set_option maxRecDepth 100000

variable {K V : Type} [DecidableEq K] [Inhabited V]

/-- C11 (iteration completeness): in a reachable table `begin()` returns an iterator `b`,
`size()` applications of `operator++` lead from `b` to `end()` and no fewer do, the
iterator reached after `j < size()` applications designates a node, the `j`-th entry of
the bucket store, so the traversal visits the entries of the store one after the other,
each once; `b` is `end()` exactly when the table is empty. -/
theorem C11_iteration (defaultHash : K → Nat) (t : HashMap K V)
    (hr : Reachable defaultHash t) :
    ∃ b, t.begin = some b
      ∧ t.advance t.size b = some t.end_
      ∧ (∀ j, j < t.size → ∃ it e, t.advance j b = some it ∧ it ≠ t.end_
          ∧ t.deref it = some e ∧ t.entries[j]? = some e)
      ∧ t.traverse (t.size + 1) = some t.entries
      ∧ t.entries.Nodup
      ∧ (b = t.end_ ↔ t.empty = true) := by
  have hi := hr.inv.1
  obtain ⟨b, h1, h2, h3⟩ := hi.shape.begin_spec
  have hn : (t.remaining b).length = t.sz := by rw [h3, hi.size]
  obtain ⟨g1, g2, g3⟩ := hi.shape.iterate_spec t.sz b h2 hn
  rw [h3] at g2 g3
  refine ⟨b, h1, g1, g3, ?_, List.Nodup.of_map Prod.fst hi.uniq, ?_⟩
  · rw [HashMap.traverse, h1]
    exact g2
  · simp only [HashMap.empty, beq_iff_eq]
    constructor
    · intro hb
      rw [hb, hi.shape.remaining_end] at hn
      exact hn.symm
    · intro hz
      rcases h2 with h2 | h2
      · exact h2
      · obtain ⟨e, it1, _, _, _, h4⟩ := hi.shape.increment_spec h2
        rw [h4, hz] at hn
        cases hn

theorem C11_iteration_witness :
    Reachable (fun k => k) sample
      ∧ ∃ b, sample.begin = some b
        ∧ sample.advance sample.size b = some sample.end_
        ∧ (∀ j, j < sample.size → ∃ it e, sample.advance j b = some it ∧ it ≠ sample.end_
            ∧ sample.deref it = some e ∧ sample.entries[j]? = some e)
        ∧ sample.traverse (sample.size + 1) = some sample.entries
        ∧ sample.entries.Nodup
        ∧ (b = sample.end_ ↔ sample.empty = true) :=
  ⟨Reachable.insert (101, 20) (Reachable.insert (1, 10) Reachable.init),
    C11_iteration (fun k => k) sample
      (Reachable.insert (101, 20) (Reachable.insert (1, 10) Reachable.init))⟩

/-- C14 (placement): after any trace of `insert`, `erase` and `operator[]` calls on
`HashMap()` or on `HashMap(_h)`, rehashing calls included, every entry of chain `i` has
`hasher(key) % max_size = i` with `i < max_size`, and the sentinel chain `table[max_size]`
is empty. -/
theorem C14_placement (defaultHash _h : K → Nat) (ops : List (Op K V)) :
    Placement ((mk0 defaultHash).run ops) ∧ Placement ((mkHash _h).run ops)
      ∧ ((mk0 defaultHash).run ops).hasher = defaultHash
      ∧ ((mkHash _h).run ops).hasher = _h :=
  ⟨(Reachable.init.run ops).inv.1.shape.placement,
    ((@Reachable.init K V _ _ _h).run ops).inv.1.shape.placement,
    (Reachable.init.run ops).inv.2,
    ((@Reachable.init K V _ _ _h).run ops).inv.2⟩

end IterationClaims

section ConstructorClaims

open HashMap

set_option maxRecDepth 100000

variable {K V : Type} [DecidableEq K]

/-- C12 (bulk construction, first occurrence wins): the table built by the range
constructor from a sequence `l`, which is also the one built by the initializer-list
constructor, has as many entries as `l` has distinct keys, and for every key `k` of `l`
`find(k)` dereferences to the first entry of `l` with key `k`. -/
theorem C12_bulk_first_wins (defaultHash : K → Nat) (l : List (K × V)) :
    (mkRange defaultHash l).size = (l.map Prod.fst).dedup.length
      ∧ mkList defaultHash l = mkRange defaultHash l
      ∧ ∀ k, k ∈ l.map Prod.fst →
          ∃ v, l.find? (fun e => decide (e.1 = k)) = some (k, v)
            ∧ (mkRange defaultHash l).find k ≠ (mkRange defaultHash l).end_
            ∧ (mkRange defaultHash l).deref ((mkRange defaultHash l).find k) = some (k, v) := by
  obtain ⟨h1, _, h3, h4⟩ := mkRange_spec defaultHash l
  refine ⟨h4, rfl, fun k hk => ?_⟩
  obtain ⟨v, hv⟩ := find?_key_of_mem l k hk
  obtain ⟨_, g2, g3⟩ := h1.shape.find_of_mem h1.uniq ((h3 k v).2 hv)
  exact ⟨v, hv, g3, g2⟩

theorem C12_bulk_first_wins_witness :
    (mkRange (fun k => k) [(1, 10), (2, 20), (1, 30)] : HashMap Nat Nat).size = 2
      ∧ ∃ v, [(1, 10), (2, 20), (1, 30)].find? (fun e => decide (e.1 = 1)) = some (1, v)
        ∧ (mkRange (fun k => k) [(1, 10), (2, 20), (1, 30)] : HashMap Nat Nat).find 1
            ≠ (mkRange (fun k => k) [(1, 10), (2, 20), (1, 30)] : HashMap Nat Nat).end_
        ∧ (mkRange (fun k => k) [(1, 10), (2, 20), (1, 30)] : HashMap Nat Nat).deref
            ((mkRange (fun k => k) [(1, 10), (2, 20), (1, 30)] : HashMap Nat Nat).find 1)
              = some (1, v) :=
  ⟨(C12_bulk_first_wins (fun k => k) [(1, 10), (2, 20), (1, 30)]).1.trans (by decide),
    (C12_bulk_first_wins (fun k => k) [(1, 10), (2, 20), (1, 30)]).2.2 1 (by decide)⟩

/-- C13, evaluated where the claim fails: `HashMap(beg, end, _h)` with default hash
`k ↦ k`, supplied hash `k ↦ k + 1` and the sequence `{(1, 10)}` has `hash_function()`
equal to `_h`, but its entry lies in chain 1 while `_h(1) % max_size` is 2, and `find(1)`
is the end cursor; the initializer-list constructor gives the same table. -/
theorem C13_hash_constructor_misplaces :
    (mkRangeHash (fun k => k) [(1, 10)] (fun k => k + 1) : HashMap Nat Nat).hash_function 1 = 2
      ∧ (mkRangeHash (fun k => k) [(1, 10)] (fun k => k + 1) : HashMap Nat Nat).chain 1
          = [(1, 10)]
      ∧ (mkRangeHash (fun k => k) [(1, 10)] (fun k => k + 1) : HashMap Nat Nat).max_size = 100
      ∧ (mkRangeHash (fun k => k) [(1, 10)] (fun k => k + 1) : HashMap Nat Nat).find 1
          = (mkRangeHash (fun k => k) [(1, 10)] (fun k => k + 1) : HashMap Nat Nat).end_
      ∧ ¬ Placement (mkRangeHash (fun k => k) [(1, 10)] (fun k => k + 1) : HashMap Nat Nat)
      ∧ (mkListHash (fun k => k) [(1, 10)] (fun k => k + 1) : HashMap Nat Nat)
          = mkRangeHash (fun k => k) [(1, 10)] (fun k => k + 1) := by
  refine ⟨by decide, by decide, by decide, by decide, fun hp => ?_, rfl⟩
  have := (hp.1 1 (1, 10) (by decide)).1
  revert this
  decide

end ConstructorClaims

section CapacityClaims

open HashMap

set_option maxRecDepth 100000

variable {K V : Type} [DecidableEq K] [Inhabited V]

/-- C15 (growth rule): on every state `rebuild()` returns the state it was given when
`sz < 100`, `max_size < 100` or `sz ≤ 2 * max_size`, and otherwise gives a state of
capacity `4 * max_size` with `4 * max_size + 1` chains; so on a table reached from
`HashMap()` a call of `insert` changes the capacity, to four times its value, exactly when
the size it leaves exceeds twice the capacity it found. -/
theorem C15_growth_rule (t : HashMap K V) :
    ((t.sz < 100 ∨ t.max_size < 100 ∨ t.sz ≤ 2 * t.max_size) → t.rebuild = t)
      ∧ (¬ (t.sz < 100 ∨ t.max_size < 100 ∨ t.sz ≤ 2 * t.max_size) →
          t.rebuild.max_size = 4 * t.max_size ∧ t.rebuild.table.length = 4 * t.max_size + 1)
      ∧ ∀ defaultHash : K → Nat, Reachable defaultHash t → ∀ elem : K × V,
          (t.insert elem).max_size
            = if 2 * t.max_size < (t.insert elem).size then 4 * t.max_size else t.max_size := by
  refine ⟨fun h => rebuild_of_not_grow t h, fun h => ?_, fun defaultHash hr elem =>
    insert_max_size hr.inv.1 elem⟩
  obtain ⟨g1, g2, _⟩ := rebuild_grow_shape t (by simp only [DEFAULT_SIZE]; omega)
    (by simp only [DEFAULT_SIZE]; omega) (by omega)
  exact ⟨g2, by rw [g1.len, g2]⟩

theorem C15_growth_rule_witness :
    (crowded.rebuild.max_size = 4 * crowded.max_size
        ∧ crowded.rebuild.table.length = 4 * crowded.max_size + 1)
      ∧ sample.rebuild = sample
      ∧ (sample.insert (7, 70)).max_size
          = if 2 * sample.max_size < (sample.insert (7, 70)).size then 4 * sample.max_size
            else sample.max_size :=
  ⟨(C15_growth_rule crowded).2.1 (by
      have h := crowded_spec.2.2.2
      unfold grows at h
      simp only [EXPAND_COEFFICIENT, DEFAULT_SIZE] at h
      omega),
    (C15_growth_rule sample).1 (Or.inl (by decide)),
    (C15_growth_rule sample).2.2 (fun k => k)
      (Reachable.insert (101, 20) (Reachable.insert (1, 10) Reachable.init)) (7, 70)⟩

/-- C17 (capacity floor and monotonicity): a table reached from `HashMap()` by `insert`,
`erase` and `operator[]` has capacity at least 100, and each such call leaves the capacity
as it is or multiplies it by 4. -/
theorem C17_capacity (defaultHash : K → Nat) (t : HashMap K V)
    (hr : Reachable defaultHash t) (op : Op K V) :
    100 ≤ t.max_size
      ∧ ((t.step op).max_size = t.max_size ∨ (t.step op).max_size = 4 * t.max_size)
      ∧ t.max_size ≤ (t.step op).max_size := by
  have hi := hr.inv.1
  have h1 := step_max_size hi op
  refine ⟨hi.cap, h1, ?_⟩
  rcases h1 with h | h <;> omega

theorem C17_capacity_witness :
    Reachable (fun k => k) sample ∧ 100 ≤ sample.max_size
      ∧ sample.max_size ≤ (sample.step (Op.insert (7, 70))).max_size :=
  ⟨Reachable.insert (101, 20) (Reachable.insert (1, 10) Reachable.init),
    (C17_capacity (fun k => k) sample
      (Reachable.insert (101, 20) (Reachable.insert (1, 10) Reachable.init))
        (Op.insert (7, 70))).1,
    (C17_capacity (fun k => k) sample
      (Reachable.insert (101, 20) (Reachable.insert (1, 10) Reachable.init))
        (Op.insert (7, 70))).2.2⟩

/-- C18 (load-factor bound): a table reached from `HashMap()` by `insert`, `erase` and
`operator[]` has `size() ≤ 2 * max_size`, and so has the table after one more such call:
the single `rebuild()` at the end of `insert` brings the size back under the threshold. -/
theorem C18_load_bound (defaultHash : K → Nat) (t : HashMap K V)
    (hr : Reachable defaultHash t) (op : Op K V) :
    t.size ≤ 2 * t.max_size ∧ (t.step op).size ≤ 2 * (t.step op).max_size :=
  ⟨hr.inv.1.load, (step_spec hr.inv.1 op).1.load⟩

theorem C18_load_bound_witness :
    Reachable (fun k => k) sample ∧ sample.size ≤ 2 * sample.max_size :=
  ⟨Reachable.insert (101, 20) (Reachable.insert (1, 10) Reachable.init),
    (C18_load_bound (fun k => k) sample
      (Reachable.insert (101, 20) (Reachable.insert (1, 10) Reachable.init))
        (Op.erase 1)).1⟩

/-- C19 (index safety): a table reached from `HashMap()` or `HashMap(_h)` by `insert`,
`erase`, `operator[]`, `clear` and copy-assignment has `max_size + 1` chains and a positive
`max_size`; so `hasher(key) % max_size` is an index of the store, as is
`hasher(key) % (4 * max_size)` in the store of `4 * max_size + 1` chains that `rebuild()`
allocates, the rows of `begin()` and `end()` are indices, `operator++` on an iterator whose
row is an index returns one whose row is an index, and `erase` decrements `sz` only when
`sz` is positive. -/
theorem C19_index_safety (defaultHash : K → Nat) (t : HashMap K V)
    (hr : ReachableWide defaultHash t) :
    t.table.length = t.max_size + 1 ∧ 0 < t.max_size
      ∧ (∀ key, t.hasher key % t.max_size < t.table.length)
      ∧ (∀ key, t.hasher key % (EXPAND_COEFFICIENT * t.max_size)
          < EXPAND_COEFFICIENT * t.max_size + 1)
      ∧ (∃ b, t.begin = some b ∧ b.row < t.table.length)
      ∧ t.end_.row < t.table.length
      ∧ (∀ it : iterator, it.row < t.table.length →
          ∃ it1, t.increment it = some it1 ∧ it1.row < t.table.length)
      ∧ (∀ key, t.removed (Op.erase key) = 1 → 0 < t.sz) := by
  have hi := hr.wide_inv
  have hlen := hi.shape.len
  have hpos := hi.shape.pos
  refine ⟨hlen, hpos, fun key => ?_, fun key => ?_, ?_, ?_, fun it hit => ?_,
    fun key hk => removed_pos hi key hk⟩
  · rw [hlen]
    exact Nat.lt_succ_of_lt (Nat.mod_lt _ hpos)
  · exact Nat.lt_succ_of_lt (Nat.mod_lt _ (Nat.mul_pos (by decide) hpos))
  · obtain ⟨b, h1, h2, _⟩ := hi.shape.begin_spec
    refine ⟨b, h1, ?_⟩
    rw [hlen]
    rcases h2 with h2 | h2
    · rw [h2]
      exact Nat.lt_succ_self _
    · exact Nat.lt_succ_of_lt h2.1
  · rw [hlen]
    exact Nat.lt_succ_self _
  · rw [hlen] at hit ⊢
    obtain ⟨it1, g1, g2⟩ := Shape.increment_row it (Nat.le_of_lt_succ hit)
    exact ⟨it1, g1, Nat.lt_succ_of_le g2⟩

theorem C19_index_safety_witness :
    ReachableWide (fun k => k) (((sample.clear (fun k => k)).assign sample).erase 1)
      ∧ 0 < (((sample.clear (fun k => k)).assign sample).erase 1).max_size
      ∧ (((sample.clear (fun k => k)).assign sample).erase 1).table.length
          = (((sample.clear (fun k => k)).assign sample).erase 1).max_size + 1 :=
  ⟨ReachableWide.erase 1 (ReachableWide.assign
      (ReachableWide.clear (ReachableWide.insert (101, 20)
        (ReachableWide.insert (1, 10) ReachableWide.init)))
      (ReachableWide.insert (101, 20) (ReachableWide.insert (1, 10) ReachableWide.init))),
    (C19_index_safety (fun k => k) (((sample.clear (fun k => k)).assign sample).erase 1)
      (ReachableWide.erase 1 (ReachableWide.assign
        (ReachableWide.clear (ReachableWide.insert (101, 20)
          (ReachableWide.insert (1, 10) ReachableWide.init)))
        (ReachableWide.insert (101, 20)
          (ReachableWide.insert (1, 10) ReachableWide.init))))).2.1,
    (C19_index_safety (fun k => k) (((sample.clear (fun k => k)).assign sample).erase 1)
      (ReachableWide.erase 1 (ReachableWide.assign
        (ReachableWide.clear (ReachableWide.insert (101, 20)
          (ReachableWide.insert (1, 10) ReachableWide.init)))
        (ReachableWide.insert (101, 20)
          (ReachableWide.insert (1, 10) ReachableWide.init))))).1⟩

end CapacityClaims

section ClearClaims

open HashMap

variable {K V : Type} [DecidableEq K]

/-- C20 (clear): on every state, whatever its hash function and capacity, `clear()` gives
the state of `HashMap()`: size 0, capacity 100, 101 empty chains, `find(k)` the end cursor
for every key, and the default-constructed `Hash` as `hash_function()`. -/
theorem C20_clear (defaultHash : K → Nat) (t : HashMap K V) :
    t.clear defaultHash = mk0 defaultHash
      ∧ (t.clear defaultHash).size = 0
      ∧ (t.clear defaultHash).max_size = 100
      ∧ (t.clear defaultHash).table = List.replicate 101 []
      ∧ (∀ k, (t.clear defaultHash).find k = (t.clear defaultHash).end_)
      ∧ (t.clear defaultHash).hash_function = defaultHash := by
  refine ⟨rfl, rfl, rfl, rfl, fun k => ?_, rfl⟩
  show (mk0 defaultHash : HashMap K V).find k = (mk0 defaultHash : HashMap K V).end_
  refine (mk0_inv defaultHash).shape.find_of_not_live ?_
  rintro ⟨v, hv⟩
  rw [mk0_entries] at hv
  cases hv

end ClearClaims

end TaskForReview
